import Mathlib

set_option maxRecDepth 10000

/-!
# Verification of the FreeRTOS host-side tooling (token compiler, log/telemetry
decoders, analytics, crash decoder)

Shallow embedding of the Python tools under `tools/` into Lean 4.

Conventions used throughout:
* Python `str` values are modelled as `List ℕ` of Unicode code points
  (`pyStr` converts a Lean string literal).
* Python `bytes` values are modelled as `List ℕ` where each element is a byte
  value; hypotheses bound bytes by 256 where the source relies on it.
* 32-bit arithmetic is modelled on `ℕ` with explicit `% 2^32`
  (`& 0xFFFFFFFF` in the source equals `% 2^32`).
* Python dicts carrying insertion order are modelled as association lists.
-/

namespace FreeRTOSTools

/-- Code points of a Lean string literal, modelling a Python `str`. -/
def pyStr (s : String) : List ℕ := s.data.map Char.toNat

/-! ## FNV-1a 32-bit hash — `gen_tokens.py`, `fnv1a_hash` (lines 36–43)

The Python source iterates over the *characters* of the string and folds
`h = ((h ^ (ord(ch) & 0xFF)) * 0x01000193) & 0xFFFFFFFF` from
`h = 0x811C9DC5`. -/

def FNV1A_32_INIT : ℕ := 0x811C9DC5
def FNV1A_32_PRIME : ℕ := 0x01000193

/-- One FNV-1a absorption step on a byte value `b` (already masked). -/
def fnv1a_step (h b : ℕ) : ℕ := ((h ^^^ b) * FNV1A_32_PRIME) % 2 ^ 32

/-- `fnv1a_hash` from `gen_tokens.py`: folds over the characters of the
Python string, masking each code point with `& 0xFF` (i.e. `% 256`). -/
def fnv1a_hash (s : List ℕ) : ℕ :=
  s.foldl (fun h c => fnv1a_step h (c % 256)) FNV1A_32_INIT

/-- FNV-1a over a byte sequence — the reference definition the spec states
("for each byte of the UTF-8/ASCII string"). Bytes are absorbed unmasked. -/
def fnv1a_bytes (bs : List ℕ) : ℕ := bs.foldl fnv1a_step FNV1A_32_INIT

/-- Standard UTF-8 encoding of one Unicode code point (spec side of the
refinement claim: the "bytes of the UTF-8 string"). -/
def utf8_bytes (c : ℕ) : List ℕ :=
  if c < 0x80 then [c]
  else if c < 0x800 then
    [0xC0 + c / 64, 0x80 + c % 64]
  else if c < 0x10000 then
    [0xE0 + c / 4096, 0x80 + c / 64 % 64, 0x80 + c % 64]
  else
    [0xF0 + c / 262144, 0x80 + c / 4096 % 64, 0x80 + c / 64 % 64, 0x80 + c % 64]

/-- The spec's reference FNV-1a hash of a string: FNV-1a over the UTF-8
bytes of its code points. -/
def fnv1a_ref (s : List ℕ) : ℕ := fnv1a_bytes (s.flatMap utf8_bytes)

/-- The FNV-1a fold from any accumulator agrees between the code-point and
byte versions on ASCII strings. -/
theorem fnv1a_fold_ascii (s : List ℕ) :
    ∀ h : ℕ, (∀ c ∈ s, c < 128) →
      s.foldl (fun h c => fnv1a_step h (c % 256)) h =
        (s.flatMap utf8_bytes).foldl fnv1a_step h := by
  induction s with
  | nil =>
    intro h _
    simp only [List.flatMap_nil, List.foldl_nil]
  | cons c rest ih =>
    intro h hascii
    have hc : c < 128 := hascii c (List.mem_cons_self _ _)
    have hrest : ∀ x ∈ rest, x < 128 := fun x hx => hascii x (List.mem_cons_of_mem _ hx)
    have hcm : c % 256 = c := Nat.mod_eq_of_lt (by omega)
    have hu : utf8_bytes c = [c] := by
      unfold utf8_bytes
      rw [if_pos (by omega)]
    simp only [List.foldl_cons, List.flatMap_cons, hu, List.cons_append,
      List.nil_append, hcm]
    exact ih _ hrest

/-- Claim C1, counterexample: on the one-character string "é" (code point
233), the compiler's hash — which absorbs `ord(ch) & 0xFF` per *character* —
differs from the FNV-1a reference over the string's UTF-8 bytes
(0xC3, 0xA9). -/
theorem C1_counterexample : fnv1a_hash [233] ≠ fnv1a_ref [233] := by decide

/-- Claim C1 (amended): for every ASCII string (all code points < 128) the
compiler's hash function equals the FNV-1a 32-bit reference definition over
the string's UTF-8 bytes: accumulator starts at 0x811C9DC5 and each byte is
XORed in and multiplied by 0x01000193 modulo 2^32. For non-ASCII characters
the code absorbs the code point masked to 8 bits rather than the UTF-8
bytes, so the restriction to ASCII is necessary. -/
theorem C1_fnv1a_matches_reference_on_ascii (s : List ℕ)
    (h : ∀ c ∈ s, c < 128) : fnv1a_hash s = fnv1a_ref s := by
  unfold fnv1a_hash fnv1a_ref fnv1a_bytes
  exact fnv1a_fold_ascii s FNV1A_32_INIT h

/-- Claim C1, witness: the amended theorem applied to the concrete ASCII
string "retry %d". -/
theorem C1_witness :
    (∀ c ∈ pyStr "retry %d", c < 128) ∧
      fnv1a_hash (pyStr "retry %d") = fnv1a_ref (pyStr "retry %d") :=
  ⟨by decide, C1_fnv1a_matches_reference_on_ascii (pyStr "retry %d") (by decide)⟩

/-! ## Varint and zig-zag decoding — `log_decoder.py` (lines 55–80) -/

/-- Loop of `decode_varint`: absorb `(byte & 0x7F) << shift` into the
result, consume the byte; stop on a clear continuation bit, or once the
next shift would reach 35 (the uint32 5-byte cap). -/
def decode_varint_loop : List ℕ → ℕ → ℕ → ℕ → ℕ × ℕ
  | [], result, _, consumed => (result, consumed)
  | b :: rest, result, shift, consumed =>
    if b &&& 0x80 = 0 then (result ||| ((b &&& 0x7F) <<< shift), consumed + 1)
    else if 35 ≤ shift + 7 then (result ||| ((b &&& 0x7F) <<< shift), consumed + 1)
    else decode_varint_loop rest (result ||| ((b &&& 0x7F) <<< shift)) (shift + 7)
      (consumed + 1)

/-- `decode_varint` from `log_decoder.py`: decode a base-128 little-endian
varint found at `offset` in `data`; returns `(value, bytes_consumed)`. -/
def decode_varint (data : List ℕ) (offset : ℕ) : ℕ × ℕ :=
  decode_varint_loop (data.drop offset) 0 0 0

/-- `zigzag_decode` from `log_decoder.py`: `(n >> 1) ^ -(n & 1)` under
Python arbitrary-precision integer semantics (xor of possibly negative
integers is two's-complement xor, which is `Int.xor`). -/
def zigzag_decode (n : ℕ) : ℤ :=
  Int.xor ((n >>> 1 : ℕ) : ℤ) (-((n &&& 1 : ℕ) : ℤ))

/-- Modelled from the spec: the firmware-side zig-zag encoder is not part
of this repository (only the host decoder is); the spec's glossary fixes it
as the signed→unsigned map keeping small magnitudes small
(0→0, −1→1, 1→2, −2→3, …). -/
def zigzagEncode (v : ℤ) : ℕ :=
  if 0 ≤ v then 2 * v.toNat else 2 * (-v).toNat - 1

/-- Modelled from the spec: the firmware-side varint encoder is not part of
this repository; the spec fixes the canonical encoding as base-128
little-endian, the MSB of each byte being the continuation bit. -/
def varintEncode (n : ℕ) : List ℕ :=
  if h : n < 0x80 then [n] else (0x80 + n % 0x80) :: varintEncode (n / 0x80)
termination_by n
decreasing_by exact Nat.div_lt_self (by omega) (by norm_num)

/-- Bit-level fact used to read the varint loop arithmetically: oring a
value below `2^s` with a left-shift by `s` is plain addition. -/
theorem or_shift_eq_add (a b s : ℕ) (ha : a < 2 ^ s) :
    a ||| (b <<< s) = a + b * 2 ^ s := by
  have hmod : (a ||| (b <<< s)) % 2 ^ s = a := by
    apply Nat.eq_of_testBit_eq
    intro i
    rw [Nat.testBit_mod_two_pow, Nat.testBit_lor, Nat.testBit_shiftLeft]
    by_cases hi : i < s
    · simp [hi, Nat.not_le.mpr hi]
    · simp [hi, Nat.testBit_lt_two_pow
        (Nat.lt_of_lt_of_le ha (Nat.pow_le_pow_right (by norm_num) (Nat.le_of_not_lt hi)))]
  have hdiv : (a ||| (b <<< s)) >>> s = b := by
    apply Nat.eq_of_testBit_eq
    intro i
    rw [Nat.testBit_shiftRight, Nat.testBit_lor, Nat.testBit_shiftLeft]
    have hbit : a.testBit (s + i) = false :=
      Nat.testBit_lt_two_pow
        (Nat.lt_of_lt_of_le ha (Nat.pow_le_pow_right (by norm_num) (by omega)))
    simp [hbit, Nat.add_sub_cancel_left]
  have hsplit := Nat.div_add_mod (a ||| (b <<< s)) (2 ^ s)
  rw [Nat.shiftRight_eq_div_pow] at hdiv
  rw [hdiv, hmod] at hsplit
  rw [Nat.mul_comm b (2 ^ s)]
  omega

/-- Low seven bits of a byte, as arithmetic. -/
theorem and_127_eq_mod (b : ℕ) : b &&& 127 = b % 128 := by
  have h := Nat.and_pow_two_sub_one_eq_mod b 7
  norm_num at h
  exact h

/-- A continuation byte (`0x80 + r`, `r < 128`) has its top bit set. -/
theorem and_128_of_cont (r : ℕ) (hr : r < 128) : (128 + r) &&& 128 = 128 := by
  have hbit : (128 + r).testBit 7 = true := by
    rw [Nat.testBit_to_div_mod]
    have : (128 + r) / 2 ^ 7 = 1 := by norm_num; omega
    rw [this]
    decide
  have h := Nat.and_two_pow (128 + r) 7
  rw [hbit] at h
  norm_num at h
  exact h

/-- A final byte (`u < 128`) has its top bit clear. -/
theorem and_128_of_last (u : ℕ) (hu : u < 128) : u &&& 128 = 0 := by
  have hbit : u.testBit 7 = false := Nat.testBit_lt_two_pow (by norm_num; omega)
  have h := Nat.and_two_pow u 7
  rw [hbit] at h
  norm_num at h
  exact h

/-- Decoding the canonical varint encoding from any loop state recovers the
encoded value shifted into place, and consumes the whole encoding. -/
theorem decode_varint_loop_encode (u : ℕ) :
    ∀ shift acc consumed, 7 ∣ shift → shift ≤ 28 → u < 2 ^ (35 - shift) →
      acc < 2 ^ shift →
      decode_varint_loop (varintEncode u) acc shift consumed =
        (acc + u * 2 ^ shift, consumed + (varintEncode u).length) := by
  induction u using Nat.strong_induction_on with
  | _ u ih =>
    intro shift acc consumed h7 h28 hu hacc
    by_cases hsmall : u < 128
    · rw [varintEncode, dif_pos hsmall]
      have h1 : u &&& 128 = 0 := and_128_of_last u hsmall
      have h2 : u &&& 127 = u := by
        rw [and_127_eq_mod]; exact Nat.mod_eq_of_lt hsmall
      simp only [decode_varint_loop, h1, h2, List.length_singleton]
      rw [or_shift_eq_add acc u shift hacc]
      simp
    · rw [varintEncode, dif_neg hsmall]
      have hr : u % 128 < 128 := Nat.mod_lt _ (by norm_num)
      have h1 : (128 + u % 128) &&& 128 = 128 := and_128_of_cont _ hr
      have h2 : (128 + u % 128) &&& 127 = u % 128 := by
        rw [and_127_eq_mod]; omega
      have hshift : shift ≤ 21 := by
        have hlow : (128 : ℕ) ≤ u := by omega
        have : (2 : ℕ) ^ 7 ≤ 2 ^ (35 - shift) := le_trans (by norm_num) (le_of_lt (lt_of_le_of_lt hlow hu))
        have h35 : 7 < 35 - shift := by
          by_contra hc
          push_neg at hc
          have := Nat.pow_le_pow_right (show 1 ≤ 2 by norm_num) hc
          omega
        omega
      have hnotcap : ¬ 35 ≤ shift + 7 := by omega
      simp only [decode_varint_loop, h1, h2, if_neg (by norm_num : ¬(128 : ℕ) = 0),
        if_neg hnotcap]
      have hpow : (2 : ℕ) ^ (shift + 7) = 2 ^ shift * 128 := by
        rw [Nat.pow_add]
      have hacc' : acc + u % 128 * 2 ^ shift < 2 ^ (shift + 7) := by
        have hmul : u % 128 * 2 ^ shift ≤ 127 * 2 ^ shift :=
          Nat.mul_le_mul_right _ (by omega)
        rw [hpow]
        omega
      rw [or_shift_eq_add acc (u % 128) shift hacc]
      have hdiv : u / 128 < 2 ^ (35 - (shift + 7)) := by
        have he : 35 - shift = (35 - (shift + 7)) + 7 := by omega
        rw [he, Nat.pow_add] at hu
        norm_num at hu
        omega
      have hrec := ih (u / 128) (Nat.div_lt_self (by omega) (by norm_num))
        (shift + 7) (acc + u % 128 * 2 ^ shift) (consumed + 1)
        (by omega) (by omega) hdiv hacc'
      rw [hrec]
      have hfst : acc + u % 128 * 2 ^ shift + u / 128 * 2 ^ (shift + 7)
          = acc + u * 2 ^ shift := by
        rw [hpow]
        have hsplitu : 128 * (u / 128) + u % 128 = u := Nat.div_add_mod u 128
        calc acc + u % 128 * 2 ^ shift + u / 128 * (2 ^ shift * 128)
            = acc + (128 * (u / 128) + u % 128) * 2 ^ shift := by ring
          _ = acc + u * 2 ^ shift := by rw [hsplitu]
      rw [Prod.mk.injEq]
      refine ⟨hfst, ?_⟩
      simp only [List.length_cons]
      omega

/-- The canonical varint encoding of a value below `2^(7k+7)` takes at most
`k+1` bytes. -/
theorem varintEncode_length (k : ℕ) :
    ∀ u, u < 2 ^ (7 * k + 7) → (varintEncode u).length ≤ k + 1 := by
  induction k with
  | zero =>
    intro u hu
    rw [varintEncode, dif_pos (by norm_num at hu; omega)]
    simp
  | succ k ih =>
    intro u hu
    by_cases hsmall : u < 128
    · rw [varintEncode, dif_pos hsmall]; simp
    · rw [varintEncode, dif_neg hsmall]
      simp only [List.length_cons]
      have : u / 128 < 2 ^ (7 * k + 7) := by
        have he : 7 * (k + 1) + 7 = (7 * k + 7) + 7 := by omega
        rw [he, Nat.pow_add] at hu
        norm_num at hu
        omega
      have := ih (u / 128) this
      omega

/-- Zig-zag decoding inverts the canonical zig-zag encoding on all of ℤ. -/
theorem zigzag_decode_encode (v : ℤ) : zigzag_decode (zigzagEncode v) = v := by
  unfold zigzag_decode zigzagEncode
  by_cases hv : 0 ≤ v
  · rw [if_pos hv]
    have h1 : (2 * v.toNat) &&& 1 = 0 := by
      rw [Nat.and_one_is_mod, Nat.mul_mod_right]
    have h2 : (2 * v.toNat) >>> 1 = v.toNat := by
      rw [Nat.shiftRight_eq_div_pow]
      omega
    rw [h1, h2]
    have h3 : Int.xor (Int.ofNat v.toNat) (-(Int.ofNat 0)) = Int.ofNat (v.toNat ^^^ 0) := rfl
    rw [show ((0 : ℕ) : ℤ) = Int.ofNat 0 from rfl, show (v.toNat : ℤ) = Int.ofNat v.toNat from rfl,
      h3, Nat.xor_zero]
    exact Int.toNat_of_nonneg hv
  · rw [if_neg hv]
    push_neg at hv
    have ha : 1 ≤ (-v).toNat := by omega
    have h1 : (2 * (-v).toNat - 1) &&& 1 = 1 := by
      rw [Nat.and_one_is_mod]
      omega
    have h2 : (2 * (-v).toNat - 1) >>> 1 = (-v).toNat - 1 := by
      rw [Nat.shiftRight_eq_div_pow]
      omega
    rw [h1, h2]
    have h3 : Int.xor (Int.ofNat ((-v).toNat - 1)) (-(Int.ofNat 1))
        = Int.negSucc (((-v).toNat - 1) ^^^ 0) := rfl
    rw [show ((1 : ℕ) : ℤ) = Int.ofNat 1 from rfl,
      show (((-v).toNat - 1 : ℕ) : ℤ) = Int.ofNat ((-v).toNat - 1) from rfl, h3, Nat.xor_zero]
    rw [Int.negSucc_eq]
    omega

/-- Claim C2: for every signed 32-bit integer v, zig-zag decoding inverts
the zig-zag encoding of v; decoding the canonical varint encoding of the
zig-zag value returns that unsigned value together with the encoding's byte
length; and that length is at most 5 bytes. -/
theorem C2_zigzag_varint_roundtrip (v : ℤ)
    (h1 : -2 ^ 31 ≤ v) (h2 : v < 2 ^ 31) :
    zigzag_decode (zigzagEncode v) = v ∧
      decode_varint (varintEncode (zigzagEncode v)) 0 =
        (zigzagEncode v, (varintEncode (zigzagEncode v)).length) ∧
      (varintEncode (zigzagEncode v)).length ≤ 5 := by
  have hu : zigzagEncode v < 2 ^ 35 := by
    unfold zigzagEncode
    by_cases hv : 0 ≤ v
    · rw [if_pos hv]
      have : v.toNat < 2 ^ 31 := by omega
      omega
    · rw [if_neg hv]
      push_neg at hv
      have : (-v).toNat ≤ 2 ^ 31 := by omega
      omega
  refine ⟨zigzag_decode_encode v, ?_, ?_⟩
  · unfold decode_varint
    rw [List.drop_zero]
    have := decode_varint_loop_encode (zigzagEncode v) 0 0 0
      ⟨0, rfl⟩ (by omega) (by norm_num at hu ⊢; omega) (by norm_num)
    simpa using this
  · have := varintEncode_length 4 (zigzagEncode v) (by norm_num at hu ⊢; omega)
    omega

/-- Claim C2, witness: the round-trip theorem applied to the concrete
signed value −3 (zig-zag 5, varint `[0x05]`). -/
theorem C2_witness :
    zigzag_decode (zigzagEncode (-3)) = -3 ∧
      decode_varint (varintEncode (zigzagEncode (-3))) 0 =
        (zigzagEncode (-3), (varintEncode (zigzagEncode (-3))).length) ∧
      (varintEncode (zigzagEncode (-3))).length ≤ 5 :=
  C2_zigzag_varint_roundtrip (-3) (by decide) (by decide)

/-! ## Token database build — `gen_tokens.py` (lines 164–210)

`scan_file` produces dicts `{level, fmt, arg_types, file, line, has_args}`;
`build_token_database` folds them into a hash-keyed dict, failing on a
collision between different format strings. -/

/-- One scanned LOG_xxx call site (`scan_file` result row). -/
structure ScanToken where
  level : List ℕ
  fmt : List ℕ
  arg_types : List ℕ
  file : List ℕ
  line : ℕ
  has_args : Bool
deriving DecidableEq

/-- One token database entry (value of the `db` dict). -/
structure DbEntry where
  level : List ℕ
  fmt : List ℕ
  arg_types : List ℕ
  file : List ℕ
  line : ℕ
deriving DecidableEq

/-- Python dict assignment `d[k] = v` on an insertion-ordered association
list: overwrite in place if the key exists, else append. -/
def dictSet {α β : Type} [DecidableEq α] : List (α × β) → α → β → List (α × β)
  | [], k, v => [(k, v)]
  | (k', v') :: rest, k, v =>
    if k' = k then (k', v) :: rest else (k', v') :: dictSet rest k v

/-- Python dict lookup `d.get(k)` on an association list. -/
def lookupKey {α β : Type} [DecidableEq α] : List (α × β) → α → Option β
  | [], _ => none
  | (k', v') :: rest, k => if k' = k then some v' else lookupKey rest k

/-- The db entry recorded for a scanned token. -/
def entryOf (t : ScanToken) : DbEntry :=
  ⟨t.level, t.fmt, t.arg_types, t.file, t.line⟩

/-- Loop of `build_token_database`: `db` is the hash→entry dict, `seen` the
set of format strings already recorded (the keys of `fmt_to_hash`, whose
values the code never reads). `none` models the `sys.exit(1)` on a
collision between different format strings. -/
def build_loop : List ScanToken → List (ℕ × DbEntry) → List (List ℕ) →
    Option (List (ℕ × DbEntry))
  | [], db, _ => some db
  | tok :: rest, db, seen =>
    if tok.fmt ∈ seen then build_loop rest db seen
    else
      match lookupKey db (fnv1a_hash tok.fmt) with
      | some e =>
        if e.fmt ≠ tok.fmt then none
        else build_loop rest (dictSet db (fnv1a_hash tok.fmt) (entryOf tok))
          (tok.fmt :: seen)
      | none => build_loop rest (dictSet db (fnv1a_hash tok.fmt) (entryOf tok))
          (tok.fmt :: seen)

/-- `build_token_database` from `gen_tokens.py`. -/
def build_token_database (toks : List ScanToken) : Option (List (ℕ × DbEntry)) :=
  build_loop toks [] []

/-- State invariant of the build loop: entries are keyed by the hash of
their own format string and their format string has been seen; every seen
format string resolves through the dict to an entry carrying it; keys are
distinct. -/
def BuildInv (db : List (ℕ × DbEntry)) (seen : List (List ℕ)) : Prop :=
  (∀ p ∈ db, fnv1a_hash p.2.fmt = p.1 ∧ p.2.fmt ∈ seen) ∧
  (∀ f ∈ seen, ∃ e, lookupKey db (fnv1a_hash f) = some e ∧ e.fmt = f) ∧
  (db.map Prod.fst).Nodup

/-- A successful lookup exhibits a member of the association list. -/
theorem mem_of_lookupKey {α β : Type} [DecidableEq α]
    (db : List (α × β)) (k : α) (e : β) :
    lookupKey db k = some e → (k, e) ∈ db := by
  induction db with
  | nil => intro h; simp [lookupKey] at h
  | cons p rest ih =>
    intro h
    rw [lookupKey] at h
    by_cases hk : p.1 = k
    · rw [if_pos hk] at h
      have h2 : p.2 = e := by injection h
      have hp : p = (k, e) := by cases p; simp_all
      rw [← hp]
      exact List.mem_cons_self _ _
    · rw [if_neg hk] at h
      exact List.mem_cons_of_mem _ (ih h)

/-- Setting an absent key appends. -/
theorem dictSet_absent {α β : Type} [DecidableEq α]
    (db : List (α × β)) (k : α) (v : β) :
    lookupKey db k = none → dictSet db k v = db ++ [(k, v)] := by
  induction db with
  | nil => intro _; rfl
  | cons p rest ih =>
    intro h
    rw [lookupKey] at h
    by_cases hk : p.1 = k
    · rw [if_pos hk] at h; cases h
    · rw [if_neg hk] at h
      cases p
      rw [dictSet, if_neg hk, ih h]
      simp

/-- Lookup of a distinct key is unchanged by an append. -/
theorem lookupKey_append_ne {α β : Type} [DecidableEq α]
    (db : List (α × β)) (k k' : α) (v : β) (hne : k' ≠ k) :
    lookupKey (db ++ [(k, v)]) k' = lookupKey db k' := by
  induction db with
  | nil => simp [lookupKey, Ne.symm hne]
  | cons p rest ih =>
    by_cases hk : p.1 = k'
    · simp [lookupKey, hk]
    · simp only [List.cons_append, lookupKey, if_neg hk]
      exact ih

/-- Lookup of a freshly appended key finds it. -/
theorem lookupKey_append_self {α β : Type} [DecidableEq α]
    (db : List (α × β)) (k : α) (v : β) (h : lookupKey db k = none) :
    lookupKey (db ++ [(k, v)]) k = some v := by
  induction db with
  | nil => simp [lookupKey]
  | cons p rest ih =>
    rw [lookupKey] at h
    by_cases hk : p.1 = k
    · rw [if_pos hk] at h; cases h
    · rw [if_neg hk] at h
      simp only [List.cons_append, lookupKey, if_neg hk]
      exact ih h

/-- A key occurring in the list is found by lookup. -/
theorem lookupKey_isSome_of_mem {α β : Type} [DecidableEq α]
    (db : List (α × β)) (k : α) (v : β) (h : (k, v) ∈ db) :
    lookupKey db k ≠ none := by
  induction db with
  | nil => simp at h
  | cons p rest ih =>
    rw [lookupKey]
    by_cases hk : p.1 = k
    · rw [if_pos hk]; simp
    · rw [if_neg hk]
      rcases List.mem_cons.mp h with heq | hmem
      · rw [← heq] at hk; simp at hk
      · exact ih hmem

/-- The invariant survives recording a fresh format string. -/
theorem buildInv_insert (db : List (ℕ × DbEntry)) (seen : List (List ℕ))
    (t : ScanToken) (hinv : BuildInv db seen)
    (hlk : lookupKey db (fnv1a_hash t.fmt) = none) :
    BuildInv (db ++ [(fnv1a_hash t.fmt, entryOf t)]) (t.fmt :: seen) := by
  obtain ⟨h1, h2, h3⟩ := hinv
  refine ⟨?_, ?_, ?_⟩
  · intro p hp
    rcases List.mem_append.mp hp with hold | hnew
    · obtain ⟨ha, hb⟩ := h1 p hold
      exact ⟨ha, List.mem_cons_of_mem _ hb⟩
    · simp at hnew
      rw [hnew]
      exact ⟨rfl, List.mem_cons_self _ _⟩
  · intro f hf
    rcases List.mem_cons.mp hf with heq | hmem
    · subst heq
      exact ⟨entryOf t, lookupKey_append_self db _ _ hlk, rfl⟩
    · obtain ⟨e, he, hefmt⟩ := h2 f hmem
      refine ⟨e, ?_, hefmt⟩
      have hne : fnv1a_hash f ≠ fnv1a_hash t.fmt := by
        intro hcontra
        rw [hcontra] at he
        rw [he] at hlk
        cases hlk
      rw [lookupKey_append_ne db _ _ _ hne]
      exact he
  · rw [List.map_append]
    simp only [List.map_cons, List.map_nil]
    rw [List.nodup_append]
    refine ⟨h3, List.nodup_singleton _, ?_⟩
    intro a ha hb
    simp at hb
    subst hb
    obtain ⟨v, hv⟩ := List.mem_map.mp ha
    have := lookupKey_isSome_of_mem db _ v.2 (by
      have : v = (fnv1a_hash t.fmt, v.2) := by
        cases v; simp_all
      rw [← this]; exact hv.1)
    exact this hlk

/-- A failing build run exhibits two different format strings with equal
hashes (one possibly among the already-seen strings). -/
theorem build_loop_none_collision (toks : List ScanToken) :
    ∀ db seen, BuildInv db seen → build_loop toks db seen = none →
      ∃ t ∈ toks, ∃ f, (f ∈ seen ∨ f ∈ toks.map ScanToken.fmt) ∧ f ≠ t.fmt ∧
        fnv1a_hash f = fnv1a_hash t.fmt := by
  induction toks with
  | nil =>
    intro db seen _ h
    rw [build_loop] at h
    cases h
  | cons t rest ih =>
    intro db seen hinv hnone
    rw [build_loop] at hnone
    by_cases hseen : t.fmt ∈ seen
    · rw [if_pos hseen] at hnone
      obtain ⟨t', ht', f, hf, hne, hh⟩ := ih db seen hinv hnone
      refine ⟨t', List.mem_cons_of_mem _ ht', f, ?_, hne, hh⟩
      rcases hf with hf | hf
      · exact Or.inl hf
      · right
        rw [List.map_cons]
        exact List.mem_cons_of_mem _ hf
    · rw [if_neg hseen] at hnone
      cases hlk : lookupKey db (fnv1a_hash t.fmt) with
      | some e =>
        simp only [hlk] at hnone
        by_cases hef : e.fmt = t.fmt
        · have hmem := mem_of_lookupKey _ _ _ hlk
          have hs := (hinv.1 _ hmem).2
          rw [hef] at hs
          exact absurd hs hseen
        · refine ⟨t, List.mem_cons_self _ _, e.fmt, ?_, hef, ?_⟩
          · exact Or.inl (hinv.1 _ (mem_of_lookupKey _ _ _ hlk)).2
          · exact (hinv.1 _ (mem_of_lookupKey _ _ _ hlk)).1
      | none =>
        simp only [hlk] at hnone
        rw [dictSet_absent _ _ _ hlk] at hnone
        have hinv' := buildInv_insert db seen t hinv hlk
        obtain ⟨t', ht', f, hf, hne, hh⟩ := ih _ _ hinv' hnone
        refine ⟨t', List.mem_cons_of_mem _ ht', f, ?_, hne, hh⟩
        rcases hf with hf | hf
        · rcases List.mem_cons.mp hf with heq | hf2
          · subst heq
            right
            rw [List.map_cons]
            exact List.mem_cons_self _ _
          · exact Or.inl hf2
        · right
          rw [List.map_cons]
          exact List.mem_cons_of_mem _ hf

/-- A successful build run resolves every processed format string to an
entry carrying it, its entries are keyed by their own hash, and keys are
distinct. -/
theorem build_loop_some_facts (toks : List ScanToken) :
    ∀ db seen db', BuildInv db seen → build_loop toks db seen = some db' →
      (∀ f ∈ seen, ∃ e, lookupKey db' (fnv1a_hash f) = some e ∧ e.fmt = f) ∧
      (∀ t ∈ toks, ∃ e, lookupKey db' (fnv1a_hash t.fmt) = some e ∧ e.fmt = t.fmt) ∧
      (∀ p ∈ db', fnv1a_hash p.2.fmt = p.1) ∧ (db'.map Prod.fst).Nodup := by
  induction toks with
  | nil =>
    intro db seen db' hinv hsome
    rw [build_loop] at hsome
    injection hsome with h
    subst h
    exact ⟨hinv.2.1, by simp, fun p hp => (hinv.1 p hp).1, hinv.2.2⟩
  | cons t rest ih =>
    intro db seen db' hinv hsome
    rw [build_loop] at hsome
    by_cases hseen : t.fmt ∈ seen
    · rw [if_pos hseen] at hsome
      obtain ⟨hA, hB, hC, hD⟩ := ih db seen db' hinv hsome
      refine ⟨hA, ?_, hC, hD⟩
      intro t' ht'
      rcases List.mem_cons.mp ht' with heq | hmem
      · subst heq
        exact hA _ hseen
      · exact hB _ hmem
    · rw [if_neg hseen] at hsome
      cases hlk : lookupKey db (fnv1a_hash t.fmt) with
      | some e =>
        simp only [hlk] at hsome
        by_cases hef : e.fmt = t.fmt
        · have hmem := mem_of_lookupKey _ _ _ hlk
          have hs := (hinv.1 _ hmem).2
          rw [hef] at hs
          exact absurd hs hseen
        · rw [if_pos hef] at hsome
          cases hsome
      | none =>
        simp only [hlk] at hsome
        rw [dictSet_absent _ _ _ hlk] at hsome
        have hinv' := buildInv_insert db seen t hinv hlk
        obtain ⟨hA, hB, hC, hD⟩ := ih _ _ db' hinv' hsome
        refine ⟨?_, ?_, hC, hD⟩
        · intro f hf
          exact hA f (List.mem_cons_of_mem _ hf)
        · intro t' ht'
          rcases List.mem_cons.mp ht' with heq | hmem
          · subst heq
            exact hA _ (List.mem_cons_self _ _)
          · exact hB _ hmem

/-- A duplicate-free list whose elements are all equal has at most one. -/
theorem length_le_one_of_nodup_const {α : Type} (l : List α) (c : α)
    (hn : l.Nodup) (hc : ∀ a ∈ l, a = c) : l.length ≤ 1 := by
  match l with
  | [] => simp
  | [a] => simp
  | a :: b :: rest =>
    exfalso
    have ha := hc a (by simp)
    have hb := hc b (by simp)
    rw [List.nodup_cons] at hn
    apply hn.1
    rw [show a = b by rw [ha, hb]]
    exact List.mem_cons_self _ _

/-- Claim C3: for every list of scanned log call sites, building the token
database fails (None, modelling the fatal exit reporting both locations)
if and only if two call sites carry *different* format strings with equal
FNV-1a hashes; and on success every scanned format string is represented
by exactly one database entry (duplicates are deduplicated, never treated
as a collision). -/
theorem C3_collision_and_dedup (toks : List ScanToken) :
    (build_token_database toks = none ↔
      ∃ t1 ∈ toks, ∃ t2 ∈ toks, t1.fmt ≠ t2.fmt ∧
        fnv1a_hash t1.fmt = fnv1a_hash t2.fmt) ∧
    (∀ db, build_token_database toks = some db →
      ∀ t ∈ toks, (db.filter (fun p => p.2.fmt = t.fmt)).length = 1) := by
  have hinv0 : BuildInv [] [] := ⟨by simp, by simp, by simp⟩
  constructor
  · constructor
    · intro hnone
      obtain ⟨t, ht, f, hf, hne, hh⟩ :=
        build_loop_none_collision toks [] [] hinv0 hnone
      rcases hf with hf | hf
      · simp at hf
      · obtain ⟨t1, ht1, hfmt⟩ := List.mem_map.mp hf
        refine ⟨t1, ht1, t, ht, ?_, ?_⟩
        · rw [hfmt]; exact hne
        · rw [hfmt]; exact hh
    · rintro ⟨t1, ht1, t2, ht2, hne, hh⟩
      cases hbuild : build_token_database toks with
      | none => rfl
      | some db' =>
        exfalso
        obtain ⟨_, hB, _, _⟩ := build_loop_some_facts toks [] [] db' hinv0 hbuild
        obtain ⟨e1, he1, hf1⟩ := hB t1 ht1
        obtain ⟨e2, he2, hf2⟩ := hB t2 ht2
        rw [hh, he2] at he1
        injection he1 with he
        exact hne (by rw [← hf1, ← hf2, he])
  · intro db hdb t ht
    obtain ⟨_, hB, hC, hD⟩ := build_loop_some_facts toks [] [] db hinv0 hdb
    obtain ⟨e, he, hef⟩ := hB t ht
    have hmem : (fnv1a_hash t.fmt, e) ∈ db := mem_of_lookupKey _ _ _ he
    have hmemf : (fnv1a_hash t.fmt, e) ∈ db.filter (fun p => p.2.fmt = t.fmt) := by
      rw [List.mem_filter]
      exact ⟨hmem, by simp [hef]⟩
    have hge : 0 < (db.filter (fun p => p.2.fmt = t.fmt)).length :=
      List.length_pos.mpr (List.ne_nil_of_mem hmemf)
    have hsub : List.Sublist ((db.filter (fun p => p.2.fmt = t.fmt)).map Prod.fst)
        (db.map Prod.fst) :=
      List.Sublist.map _ (List.filter_sublist _)
    have hnodup := hD.sublist hsub
    have hconst : ∀ a ∈ (db.filter (fun p => p.2.fmt = t.fmt)).map Prod.fst,
        a = fnv1a_hash t.fmt := by
      intro a ha
      obtain ⟨p, hp, hpa⟩ := List.mem_map.mp ha
      rw [List.mem_filter] at hp
      have hkey := hC p hp.1
      have hpf : p.2.fmt = t.fmt := by simpa using hp.2
      rw [← hpa, ← hkey, hpf]
    have hle := length_le_one_of_nodup_const _ _ hnodup hconst
    rw [List.length_map] at hle
    omega

/-- Two scanned call sites sharing the format string "retry %d". -/
def sampleTok1 : ScanToken :=
  ⟨pyStr "ERROR", pyStr "retry %d", pyStr "d", pyStr "main.c", 10, true⟩

/-- A second call site with the same format string in another file. -/
def sampleTok2 : ScanToken :=
  ⟨pyStr "ERROR", pyStr "retry %d", pyStr "d", pyStr "net.c", 22, true⟩

/-- The database the build produces for the two duplicate call sites. -/
def sampleDb : List (ℕ × DbEntry) :=
  [(fnv1a_hash (pyStr "retry %d"), entryOf sampleTok1)]

/-- Claim C3, witness: building from two occurrences of `"retry %d"`
succeeds and records exactly one entry for that format string. -/
theorem C3_witness :
    (sampleDb.filter (fun p => p.2.fmt = sampleTok1.fmt)).length = 1 :=
  (C3_collision_and_dedup [sampleTok1, sampleTok2]).2 sampleDb (by decide)
    sampleTok1 (by decide)

/-! ## Build id — `gen_tokens.py`, `compute_build_id` (lines 203–210) -/

/-- Lowercase hexadecimal digit character ('0'–'9', 'a'–'f'). -/
def hexDigitChar (d : ℕ) : ℕ := if d < 10 then 48 + d else 87 + d

/-- Python `f'0x{h:08x}'` for a 32-bit value: "0x" followed by 8 lowercase
hex digits. The database keys are FNV-1a values, which are below `2^32`,
where this agrees exactly with Python's rendering. -/
def hex08x (h : ℕ) : List ℕ :=
  [48, 120] ++ (List.range 8).map (fun i => hexDigitChar (h / 16 ^ (7 - i) % 16))

/-- Python `','.join(strs)`. -/
def joinComma : List (List ℕ) → List ℕ
  | [] => []
  | [x] => x
  | x :: y :: rest => x ++ (44 :: joinComma (y :: rest))

/-- The string `','.join(f'0x{h:08x}' for h in sorted(db.keys()))` hashed by
`compute_build_id`. Python's `sorted` is modelled by insertion sort into
ascending order. -/
def buildIdString (db : List (ℕ × DbEntry)) : List ℕ :=
  joinComma (((db.map Prod.fst).insertionSort (· ≤ ·)).map hex08x)

/-- `compute_build_id` from `gen_tokens.py`: 0 for an empty database, else
the FNV-1a hash of the comma-joined, ascending-sorted, hex-formatted keys. -/
def compute_build_id (db : List (ℕ × DbEntry)) : ℕ :=
  if db = [] then 0 else fnv1a_hash (buildIdString db)

/-- Sorting by `≤` is invariant under permutation of the input. -/
theorem insertionSort_eq_of_perm (l1 l2 : List ℕ) (h : l1.Perm l2) :
    l1.insertionSort (· ≤ ·) = l2.insertionSort (· ≤ ·) := by
  apply List.eq_of_perm_of_sorted (r := (· ≤ · : ℕ → ℕ → Prop))
  · exact (List.perm_insertionSort _ l1).trans (h.trans (List.perm_insertionSort _ l2).symm)
  · exact List.sorted_insertionSort _ l1
  · exact List.sorted_insertionSort _ l2

/-- Length of the joined hex rendering of a nonempty key list. -/
theorem joinComma_hex_length (l : List ℕ) :
    l ≠ [] → (joinComma (l.map hex08x)).length = 11 * l.length - 1 := by
  induction l with
  | nil => intro h; simp at h
  | cons a rest ih =>
    intro _
    cases rest with
    | nil => simp [joinComma, hex08x]
    | cons b r2 =>
      rw [List.map_cons, List.map_cons, joinComma]
      have hrec := ih (by simp)
      rw [List.map_cons] at hrec
      simp only [List.length_append, List.length_cons, hrec]
      simp [hex08x]
      omega

/-- Claim C4 (amended): the build identifier is a pure function of the
multiset of token hashes — two databases whose key lists are permutations
of each other yield the same build id — and adding one token always
changes the hashed key string (the comma-joined sorted hex rendering),
though the 32-bit FNV-1a value of that string can coincide (see the
counterexample), so the *id* itself is not guaranteed to change. -/
theorem C4_build_id_pure_function (db1 db2 db : List (ℕ × DbEntry))
    (k : ℕ) (e : DbEntry)
    (hperm : (db1.map Prod.fst).Perm (db2.map Prod.fst)) :
    compute_build_id db1 = compute_build_id db2 ∧
      buildIdString ((k, e) :: db) ≠ buildIdString db := by
  constructor
  · unfold compute_build_id
    by_cases h1 : db1 = []
    · subst h1
      simp only [List.map_nil] at hperm
      have h2 : db2.map Prod.fst = [] := hperm.symm.eq_nil
      have h3 : db2 = [] := List.map_eq_nil_iff.mp h2
      rw [h3]
    · have h2 : db2 ≠ [] := by
        intro hc
        subst hc
        simp only [List.map_nil] at hperm
        exact h1 (List.map_eq_nil_iff.mp hperm.eq_nil)
      rw [if_neg h1, if_neg h2]
      unfold buildIdString
      rw [insertionSort_eq_of_perm _ _ hperm]
  · intro hc
    have hlen := congrArg List.length hc
    unfold buildIdString at hlen
    have hlen1 : ((((k, e) :: db).map Prod.fst).insertionSort (· ≤ ·)).length
        = db.length + 1 := by
      have := (List.perm_insertionSort (· ≤ ·) (((k, e) :: db).map Prod.fst)).length_eq
      simpa using this
    have hlen2 : ((db.map Prod.fst).insertionSort (· ≤ ·)).length = db.length := by
      have := (List.perm_insertionSort (· ≤ ·) (db.map Prod.fst)).length_eq
      simpa using this
    have h1ne : (((k, e) :: db).map Prod.fst).insertionSort (· ≤ ·) ≠ [] := by
      intro hcon
      rw [hcon] at hlen1
      simp at hlen1
    rw [joinComma_hex_length _ h1ne, hlen1] at hlen
    by_cases hdb : db = []
    · subst hdb
      have hnil : (([] : List (ℕ × DbEntry)).map Prod.fst).insertionSort (· ≤ ·) = [] := rfl
      rw [hnil] at hlen
      simp [joinComma] at hlen
    · have h2ne : (db.map Prod.fst).insertionSort (· ≤ ·) ≠ [] := by
        intro hcon
        rw [hcon] at hlen2
        simp at hlen2
        exact hdb (List.length_eq_zero.mp hlen2.symm)
      rw [joinComma_hex_length _ h2ne, hlen2] at hlen
      have hpos : 1 ≤ db.length := by
        cases db with
        | nil => exact absurd rfl hdb
        | cons _ _ => simp
      omega

/-- Database entry used in the concrete C4 instances. -/
def c4Entry : DbEntry := ⟨pyStr "INFO", pyStr "boot", pyStr "", pyStr "m.c", 1⟩

/-- Claim C4, counterexample: adding the token hash 0xF63672FD to the
one-element hash set {0x00000000} does not change the build id — the
comma-joined sorted hex strings "0x00000000" and "0x00000000,0xf63672fd"
are different, but both FNV-1a hash to 0xAB0D6815. -/
theorem C4_counterexample :
    compute_build_id [(0, c4Entry), (4130763517, c4Entry)] =
      compute_build_id [(0, c4Entry)] := by decide

/-- Claim C4, witness: the amended theorem applied to concrete databases —
insertion order {1,2} versus {2,1} yields the same build id, and adding the
token 3 changes the hashed key string. -/
theorem C4_witness :
    compute_build_id [(1, c4Entry), (2, c4Entry)] =
        compute_build_id [(2, c4Entry), (1, c4Entry)] ∧
      buildIdString ((3, c4Entry) :: [(1, c4Entry)]) ≠ buildIdString [(1, c4Entry)] :=
  C4_build_id_pure_function [(1, c4Entry), (2, c4Entry)] [(2, c4Entry), (1, c4Entry)]
    [(1, c4Entry)] 3 c4Entry (by decide)

/-! ## Telemetry packet framing — `telemetry_manager.py`,
`extract_packets` (lines 292–321), packet formats (lines 36–45) -/

def PKT_SYSTEM_VITALS : ℕ := 0x01
def HEADER_SIZE : ℕ := 14
def TASK_ENTRY_SIZE : ℕ := 8

/-- `extract_packets`: while at least a header's worth of bytes remains,
peek the type byte and task count; advance one byte on an unrecognized
type; stop on an incomplete packet; otherwise slice the packet out and
continue. The Python read cursor `offset` is modelled by recursing on the
suffix `buffer[offset:]`. -/
def extract_packets (buffer : List ℕ) : List (List ℕ) × List ℕ :=
  if h14 : buffer.length < HEADER_SIZE then ([], buffer)
  else if htype : buffer.getD 0 0 ≠ PKT_SYSTEM_VITALS then
    extract_packets (buffer.drop 1)
  else if hlen : buffer.length < HEADER_SIZE + buffer.getD 13 0 * TASK_ENTRY_SIZE then
    ([], buffer)
  else
    match extract_packets
        (buffer.drop (HEADER_SIZE + buffer.getD 13 0 * TASK_ENTRY_SIZE)) with
    | (ps, rest) =>
      (buffer.take (HEADER_SIZE + buffer.getD 13 0 * TASK_ENTRY_SIZE) :: ps, rest)
termination_by buffer.length
decreasing_by
  · simp only [List.length_drop, HEADER_SIZE] at *
    omega
  · simp only [List.length_drop, HEADER_SIZE, TASK_ENTRY_SIZE] at *
    omega

/-- A complete vitals packet: it starts with the vitals type byte and its
length is exactly `14 + 8 × taskCount` for the task count in its own
header (byte 13). -/
def ValidPacket (p : List ℕ) : Prop :=
  p.getD 0 0 = PKT_SYSTEM_VITALS ∧ p.length = HEADER_SIZE + 8 * p.getD 13 0

/-- Interleaving of (garbage gap, packet) segments in front of a trailing
segment. -/
def glue : List (List ℕ × List ℕ) → List ℕ → List ℕ
  | [], t => t
  | (g, p) :: rest, t => g ++ p ++ glue rest t

/-- One resync step: a leading byte that is not the vitals type is skipped
whenever a full header's worth of bytes is buffered. -/
theorem extract_skip_byte (b : ℕ) (l : List ℕ) (hb : b ≠ PKT_SYSTEM_VITALS)
    (hl : HEADER_SIZE ≤ (b :: l).length) :
    extract_packets (b :: l) = extract_packets l := by
  rw [extract_packets]
  rw [dif_neg (by omega), dif_pos (by simpa [List.getD] using hb)]
  rfl

/-- Scanning pure garbage consumes bytes down to the last 13. -/
theorem extract_garbage (g : List ℕ) (hg : ∀ b ∈ g, b ≠ PKT_SYSTEM_VITALS) :
    extract_packets g = ([], g.drop (g.length - 13)) := by
  induction g with
  | nil => rw [extract_packets, dif_pos (by simp [HEADER_SIZE])]; rfl
  | cons b l ih =>
    by_cases h14 : (b :: l).length < HEADER_SIZE
    · rw [extract_packets, dif_pos h14]
      have : (b :: l).length - 13 = 0 := by
        simp [HEADER_SIZE] at h14 ⊢
        omega
      rw [this, List.drop_zero]
    · rw [extract_skip_byte b l (hg b (List.mem_cons_self _ _)) (by omega)]
      rw [ih (fun x hx => hg x (List.mem_cons_of_mem _ hx))]
      have hlen : 13 ≤ l.length := by
        simp [HEADER_SIZE] at h14
        omega
      have : (b :: l).length - 13 = (l.length - 13) + 1 := by
        simp only [List.length_cons]
        omega
      rw [this, List.drop_succ_cons]

/-- Garbage in front of a fully buffered header is consumed without
producing packets. -/
theorem extract_skip_garbage (g l : List ℕ)
    (hg : ∀ b ∈ g, b ≠ PKT_SYSTEM_VITALS) (hl : HEADER_SIZE ≤ l.length) :
    extract_packets (g ++ l) = extract_packets l := by
  induction g with
  | nil => rw [List.nil_append]
  | cons b g' ih =>
    rw [List.cons_append]
    rw [extract_skip_byte b (g' ++ l) (hg b (List.mem_cons_self _ _))
      (by simp [List.length_append]; simp [HEADER_SIZE] at hl ⊢; omega)]
    exact ih (fun x hx => hg x (List.mem_cons_of_mem _ hx))

/-- A complete valid packet at the head of the buffer is sliced off whole,
and extraction continues on the rest. -/
theorem extract_packet_step (p rest : List ℕ) (hp : ValidPacket p) :
    extract_packets (p ++ rest) =
      ((p :: (extract_packets rest).1), (extract_packets rest).2) := by
  obtain ⟨htype0, hlen0⟩ := hp
  have hp14 : HEADER_SIZE ≤ p.length := by
    rw [hlen0]; omega
  have hget0 : (p ++ rest).getD 0 0 = PKT_SYSTEM_VITALS := by
    rw [List.getD_append _ _ _ _ (by simp [HEADER_SIZE] at hp14; omega)]
    exact htype0
  have hget13 : (p ++ rest).getD 13 0 = p.getD 13 0 := by
    rw [List.getD_append _ _ _ _ (by simp [HEADER_SIZE] at hp14; omega)]
  have hsize : HEADER_SIZE + (p ++ rest).getD 13 0 * TASK_ENTRY_SIZE = p.length := by
    rw [hget13, hlen0]
    simp [TASK_ENTRY_SIZE]
    ring
  rw [extract_packets]
  rw [dif_neg (by simp [List.length_append]; omega)]
  rw [dif_neg (by rw [hget0]; simp)]
  rw [dif_neg (by rw [hsize]; simp [List.length_append])]
  have htake : (p ++ rest).take (HEADER_SIZE + (p ++ rest).getD 13 0 * TASK_ENTRY_SIZE)
      = p := by
    rw [hsize, List.take_left]
  have hdrop : (p ++ rest).drop (HEADER_SIZE + (p ++ rest).getD 13 0 * TASK_ENTRY_SIZE)
      = rest := by
    rw [hsize, List.drop_left]
  rw [htake, hdrop]

/-- Claim C5: a buffer made of complete valid vitals packets, each preceded
by an arbitrary garbage run containing no vitals-type byte, followed by a
trailing garbage run, decodes to exactly those packets in order; the
remainder is the unconsumed suffix of the trailing run (everything but its
last 13 bytes is consumed by the byte-by-byte resync scan). -/
theorem C5_resync_extracts_all_packets (segs : List (List ℕ × List ℕ))
    (tail : List ℕ)
    (hg : ∀ s ∈ segs, ∀ b ∈ s.1, b ≠ PKT_SYSTEM_VITALS)
    (hp : ∀ s ∈ segs, ValidPacket s.2)
    (htail : ∀ b ∈ tail, b ≠ PKT_SYSTEM_VITALS) :
    extract_packets (glue segs tail) =
      (segs.map Prod.snd, tail.drop (tail.length - 13)) := by
  induction segs with
  | nil =>
    rw [glue, List.map_nil]
    exact extract_garbage tail htail
  | cons s rest ih =>
    obtain ⟨g, p⟩ := s
    rw [glue]
    have hpv : ValidPacket p := hp (g, p) (List.mem_cons_self _ _)
    have hp14 : HEADER_SIZE ≤ p.length := by
      rw [hpv.2]; omega
    rw [List.append_assoc]
    rw [extract_skip_garbage g (p ++ glue rest tail)
      (hg (g, p) (List.mem_cons_self _ _))
      (by simp only [List.length_append]; omega)]
    rw [extract_packet_step p (glue rest tail) hpv]
    rw [ih (fun s hs => hg s (List.mem_cons_of_mem _ hs))
      (fun s hs => hp s (List.mem_cons_of_mem _ hs))]
    rw [List.map_cons]

/-- A concrete 14-byte vitals packet with task count 0
(timestamp 16, free heap 8, min-ever heap 0). -/
def samplePacket : List ℕ := [1, 0, 0, 0, 0, 16, 0, 0, 0, 8, 0, 0, 0, 0]

/-- Claim C5, witness: one garbage run, one packet and a short garbage tail
decode to exactly that packet with the tail as remainder. -/
theorem C5_witness :
    extract_packets (glue [([255, 7], samplePacket)] [9, 9]) =
      ([samplePacket], ([9, 9] : List ℕ).drop (([9, 9] : List ℕ).length - 13)) :=
  C5_resync_extracts_all_packets [([255, 7], samplePacket)] [9, 9]
    (by intro s hs; rw [List.mem_singleton] at hs; subst hs; decide)
    (by intro s hs; rw [List.mem_singleton] at hs; subst hs; exact ⟨rfl, rfl⟩)
    (by decide)

/-- Structural decomposition produced by `extract_packets`, proved by
strong induction on the buffer length, following the recursion. -/
theorem extract_decomp (n : ℕ) :
    ∀ buffer : List ℕ, buffer.length ≤ n →
      ∃ segs : List (List ℕ × List ℕ), ∃ gend : List ℕ,
        segs.map Prod.snd = (extract_packets buffer).1 ∧
        glue segs (gend ++ (extract_packets buffer).2) = buffer ∧
        (∀ s ∈ segs, ValidPacket s.2) ∧
        ((extract_packets buffer).2.length < HEADER_SIZE ∨
          ((extract_packets buffer).2.getD 0 0 = PKT_SYSTEM_VITALS ∧
            (extract_packets buffer).2.length <
              HEADER_SIZE + 8 * (extract_packets buffer).2.getD 13 0)) := by
  induction n with
  | zero =>
    intro buffer hlen
    have h14 : buffer.length < HEADER_SIZE := by
      simp [HEADER_SIZE]
      omega
    have heq : extract_packets buffer = ([], buffer) := by
      rw [extract_packets, dif_pos h14]
    refine ⟨[], [], ?_, ?_, by simp, ?_⟩
    · rw [heq]; rfl
    · rw [heq, glue, List.nil_append]
    · rw [heq]
      exact Or.inl h14
  | succ n ih =>
    intro buffer hlen
    by_cases h14 : buffer.length < HEADER_SIZE
    · have heq : extract_packets buffer = ([], buffer) := by
        rw [extract_packets, dif_pos h14]
      refine ⟨[], [], ?_, ?_, by simp, ?_⟩
      · rw [heq]; rfl
      · rw [heq, glue, List.nil_append]
      · rw [heq]
        exact Or.inl h14
    · by_cases htype : buffer.getD 0 0 ≠ PKT_SYSTEM_VITALS
      · -- resync: skip one byte
        have heq : extract_packets buffer = extract_packets (buffer.drop 1) := by
          rw [extract_packets, dif_neg h14, dif_pos htype]
        cases buffer with
        | nil => simp [HEADER_SIZE] at h14
        | cons b t =>
          have hdrop : (b :: t).drop 1 = t := rfl
          rw [hdrop] at heq
          obtain ⟨segs, gend, hmap, hglue, hvalid, hrem⟩ :=
            ih t (by simp at hlen; omega)
          cases segs with
          | nil =>
            refine ⟨[], b :: gend, ?_, ?_, by simp, ?_⟩
            · rw [heq]; exact hmap
            · rw [heq, glue, List.cons_append]
              rw [glue] at hglue
              rw [hglue]
            · rw [heq]; exact hrem
          | cons s0 srest =>
            obtain ⟨g0, p0⟩ := s0
            refine ⟨(b :: g0, p0) :: srest, gend, ?_, ?_, ?_, ?_⟩
            · rw [heq]
              simpa using hmap
            · rw [heq, glue]
              rw [glue] at hglue
              simp only [List.cons_append, List.append_assoc] at hglue ⊢
              rw [hglue]
            · intro s hs
              rcases List.mem_cons.mp hs with hs | hs
              · subst hs
                exact hvalid (g0, p0) (List.mem_cons_self _ _)
              · exact hvalid s (List.mem_cons_of_mem _ hs)
            · rw [heq]; exact hrem
      · push_neg at htype
        by_cases hincomplete :
            buffer.length < HEADER_SIZE + buffer.getD 13 0 * TASK_ENTRY_SIZE
        · have heq : extract_packets buffer = ([], buffer) := by
            rw [extract_packets, dif_neg h14, dif_neg (by simpa using htype),
              dif_pos hincomplete]
          refine ⟨[], [], ?_, ?_, by simp, ?_⟩
          · rw [heq]; rfl
          · rw [heq, glue, List.nil_append]
          · rw [heq]
            right
            refine ⟨htype, ?_⟩
            show buffer.length < HEADER_SIZE + 8 * buffer.getD 13 0
            simp only [HEADER_SIZE, TASK_ENTRY_SIZE] at hincomplete ⊢
            omega
        · -- complete packet at the head
          cases hE2 : extract_packets
              (buffer.drop (HEADER_SIZE + buffer.getD 13 0 * TASK_ENTRY_SIZE)) with
          | mk ps' rest' =>
            have heq : extract_packets buffer =
                (buffer.take (HEADER_SIZE + buffer.getD 13 0 * TASK_ENTRY_SIZE) :: ps',
                  rest') := by
              rw [extract_packets, dif_neg h14, dif_neg (by simpa using htype),
                dif_neg hincomplete, hE2]
            have hszle : HEADER_SIZE + buffer.getD 13 0 * TASK_ENTRY_SIZE ≤
                buffer.length := by omega
            obtain ⟨segs, gend, hmap, hglue, hvalid, hrem⟩ :=
              ih (buffer.drop (HEADER_SIZE + buffer.getD 13 0 * TASK_ENTRY_SIZE))
                (by
                  rw [List.length_drop]
                  simp only [HEADER_SIZE] at *
                  omega)
            rw [hE2] at hmap hglue hrem
            refine ⟨([], buffer.take (HEADER_SIZE + buffer.getD 13 0 * TASK_ENTRY_SIZE))
              :: segs, gend, ?_, ?_, ?_, ?_⟩
            · rw [heq, List.map_cons, hmap]
            · rw [heq, glue, List.nil_append]
              rw [hglue]
              exact List.take_append_drop _ buffer
            · intro s hs
              rcases List.mem_cons.mp hs with hs | hs
              · subst hs
                have hlentake : (buffer.take
                    (HEADER_SIZE + buffer.getD 13 0 * TASK_ENTRY_SIZE)).length =
                    HEADER_SIZE + buffer.getD 13 0 * TASK_ENTRY_SIZE := by
                  rw [List.length_take]
                  omega
                have hsplitb := List.take_append_drop
                  (HEADER_SIZE + buffer.getD 13 0 * TASK_ENTRY_SIZE) buffer
                have hget0 : (buffer.take
                    (HEADER_SIZE + buffer.getD 13 0 * TASK_ENTRY_SIZE)).getD 0 0 =
                    PKT_SYSTEM_VITALS := by
                  have := List.getD_append
                    (buffer.take (HEADER_SIZE + buffer.getD 13 0 * TASK_ENTRY_SIZE))
                    (buffer.drop (HEADER_SIZE + buffer.getD 13 0 * TASK_ENTRY_SIZE))
                    0 0 (by rw [hlentake]; simp only [HEADER_SIZE, TASK_ENTRY_SIZE]; omega)
                  rw [hsplitb] at this
                  rw [← this, htype]
                have hget13 : (buffer.take
                    (HEADER_SIZE + buffer.getD 13 0 * TASK_ENTRY_SIZE)).getD 13 0 =
                    buffer.getD 13 0 := by
                  have := List.getD_append
                    (buffer.take (HEADER_SIZE + buffer.getD 13 0 * TASK_ENTRY_SIZE))
                    (buffer.drop (HEADER_SIZE + buffer.getD 13 0 * TASK_ENTRY_SIZE))
                    0 13 (by rw [hlentake]; simp only [HEADER_SIZE, TASK_ENTRY_SIZE]; omega)
                  rw [hsplitb] at this
                  rw [← this]
                refine ⟨hget0, ?_⟩
                rw [hlentake, hget13]
                simp only [TASK_ENTRY_SIZE]
                ring
              · exact hvalid s hs
            · rw [heq]
              exact hrem

/-- Claim C10: every packet returned by `extract_packets` is a contiguous
slice of the input buffer, the packets are pairwise disjoint and appear in
input order (witnessed by a gap/packet decomposition of the buffer), each
begins with the vitals type byte and is exactly `14 + 8 × taskCount` bytes
long for its own header's task count, and the remainder is a suffix of the
input that is either shorter than a header or starts with a vitals header
whose full packet length exceeds the remainder length. -/
theorem C10_extract_packets_invariants (buffer : List ℕ) :
    ∃ segs : List (List ℕ × List ℕ), ∃ gend : List ℕ,
      segs.map Prod.snd = (extract_packets buffer).1 ∧
      glue segs (gend ++ (extract_packets buffer).2) = buffer ∧
      (∀ s ∈ segs, ValidPacket s.2) ∧
      ((extract_packets buffer).2.length < HEADER_SIZE ∨
        ((extract_packets buffer).2.getD 0 0 = PKT_SYSTEM_VITALS ∧
          (extract_packets buffer).2.length <
            HEADER_SIZE + 8 * (extract_packets buffer).2.getD 13 0)) :=
  extract_decomp buffer.length buffer (le_refl _)

/-! ## Tiered analytics — `telemetry_manager.py`, `TelemetryAnalytics`
(thresholds lines 60–63, `_check_alerts` lines 168–201,
`_generate_summary` lines 203–245) -/

def ALERT_HEAP_LOW : ℕ := 4096
def ALERT_HEAP_SLOPE : ℚ := -10
def ALERT_STACK_HWM_LOW : ℕ := 32
def SUMMARY_INTERVAL_S : ℕ := 300

/-- One decoded per-task entry (`decode_vitals_packet` task dict). -/
structure TaskRow where
  task_number : ℕ
  state : List ℕ
  priority : ℕ
  stack_hwm_words : ℕ
  cpu_pct : ℕ
  runtime_ms : ℕ
deriving DecidableEq

/-- One decoded vitals sample (`decode_vitals_packet` result). -/
structure Vitals where
  timestamp_ticks : ℕ
  free_heap : ℕ
  min_free_heap : ℕ
  task_count : ℕ
  tasks : List TaskRow
deriving DecidableEq

/-- One alert event. Every alert dict additionally carries the constant
field `"type": "alert"`, which is left implicit here. -/
structure Alert where
  severity : List ℕ
  category : List ℕ
  timestamp : List ℕ
  message : List ℕ
  value : ℕ
  threshold : ℕ
  task_number : Option ℕ
deriving DecidableEq

/-- Python `str(n)` for a natural number. -/
def natDigits (n : ℕ) : List ℕ :=
  if h : n < 10 then [48 + n] else natDigits (n / 10) ++ [48 + n % 10]
termination_by n
decreasing_by exact Nat.div_lt_self (by omega) (by norm_num)

/-- The per-task stack watermark alert of `_check_alerts`. -/
def stack_alert_of_task (timestamp : List ℕ) (t : TaskRow) : Option Alert :=
  if t.stack_hwm_words < ALERT_STACK_HWM_LOW then
    some ⟨pyStr "warning", pyStr "stack_low", timestamp,
      pyStr "Task " ++ natDigits t.task_number ++ pyStr " stack watermark low: "
        ++ natDigits t.stack_hwm_words ++ pyStr " words",
      t.stack_hwm_words, ALERT_STACK_HWM_LOW, some t.task_number⟩
  else none

/-- The low-heap critical alert of `_check_alerts`. -/
def heap_low_alert (timestamp : List ℕ) (v : Vitals) : Alert :=
  ⟨pyStr "critical", pyStr "heap_low", timestamp,
    pyStr "Free heap critically low: " ++ natDigits v.free_heap ++ pyStr " bytes",
    v.free_heap, ALERT_HEAP_LOW, none⟩

/-- `TelemetryAnalytics._check_alerts`: the low-heap check followed by the
per-task stack watermark checks. -/
def check_alerts (v : Vitals) (timestamp : List ℕ) : List Alert :=
  (if v.free_heap < ALERT_HEAP_LOW then [heap_low_alert timestamp v] else []) ++
    v.tasks.filterMap (stack_alert_of_task timestamp)

/-- Stack alerts never carry the heap_low category. -/
theorem stack_alerts_filter_heap_low (timestamp : List ℕ) (tasks : List TaskRow) :
    (tasks.filterMap (stack_alert_of_task timestamp)).filter
      (fun a => a.category = pyStr "heap_low") = [] := by
  induction tasks with
  | nil => rfl
  | cons t rest ih =>
    rw [List.filterMap_cons]
    by_cases hs : t.stack_hwm_words < ALERT_STACK_HWM_LOW
    · rw [stack_alert_of_task, if_pos hs]
      rw [List.filter_cons, if_neg (by
        show ¬(decide (pyStr "stack_low" = pyStr "heap_low") = true)
        decide)]
      exact ih
    · rw [stack_alert_of_task, if_neg hs]
      exact ih

/-- Claim C7: for every decoded vitals sample, the low-heap critical alert
fires iff `free_heap` is strictly below the critical threshold (4096): at
the threshold exactly, no heap_low alert is emitted; below it, exactly one
critical alert is emitted carrying the observed value and the threshold.
Stated as an equation on the heap_low-filtered alert list. -/
theorem C7_heap_low_alert_boundary (v : Vitals) (ts : List ℕ) :
    (check_alerts v ts).filter (fun a => a.category = pyStr "heap_low") =
      (if v.free_heap < ALERT_HEAP_LOW then
        [⟨pyStr "critical", pyStr "heap_low", ts,
          pyStr "Free heap critically low: " ++ natDigits v.free_heap ++ pyStr " bytes",
          v.free_heap, ALERT_HEAP_LOW, none⟩]
      else []) := by
  unfold check_alerts
  rw [List.filter_append, stack_alerts_filter_heap_low, List.append_nil]
  by_cases h : v.free_heap < ALERT_HEAP_LOW
  · rw [if_pos h, if_pos h]
    rw [List.filter_cons, if_pos (by
      show decide (pyStr "heap_low" = pyStr "heap_low") = true
      decide)]
    rfl
  · rw [if_neg h, if_neg h]
    rfl

/-! ## Periodic summary — `telemetry_manager.py`, `_generate_summary` -/

/-- One emitted summary object. The constant field `"type": "summary"` is
left implicit. -/
structure Summary where
  timestamp : List ℕ
  status : List ℕ
  sample_count : ℕ
  heap_current : ℕ
  heap_min : ℕ
  heap_slope_bytes_per_sec : ℚ
  min_ever_free_heap : ℕ
  peak_stack_usage_pct : ℕ
  task_count : ℕ
deriving DecidableEq

/-- Round half to even, as Python's `round` does. The source rounds a
binary float; this models the rounding of the exact rational value. -/
def roundHalfEven (x : ℚ) : ℤ :=
  if x - Int.floor x < 1 / 2 then Int.floor x
  else if 1 / 2 < x - Int.floor x then Int.floor x + 1
  else if Int.floor x % 2 = 0 then Int.floor x else Int.floor x + 1

/-- Python `round(x, 2)`. -/
def pyRound2 (x : ℚ) : ℚ := (roundHalfEven (100 * x) : ℚ) / 100

/-- Python `min` over a list (its head for a singleton; 0 if empty, a case
`_generate_summary` never reaches since it returns early on no samples). -/
def pyMin (l : List ℕ) : ℕ := l.foldl Nat.min (l.headD 0)

/-- Heap slope of `_generate_summary`:
`(heap_values[-1] - heap_values[0]) / (n * interval_s)` with
`interval_s = SUMMARY_INTERVAL_S / n if n > 0 else 0.5`, and `0.0` when
fewer than two samples are buffered. -/
def heapSlope (samples : List Vitals) : ℚ :=
  if 2 ≤ samples.length then
    (((samples.map Vitals.free_heap).getLastD 0 : ℚ) -
        ((samples.map Vitals.free_heap).headD 0 : ℚ)) /
      (samples.length *
        (if 0 < samples.length then (SUMMARY_INTERVAL_S : ℚ) / samples.length
         else 1 / 2))
  else 0

/-- Peak per-task stack usage percentage across all buffered samples:
`max(0, 100 - stack_hwm*100//256)` accumulated by `max`. -/
def peak_stack_pct (samples : List Vitals) : ℕ :=
  samples.foldl (fun acc s =>
    s.tasks.foldl (fun acc2 t =>
      Nat.max acc2 ((100 : ℤ) - (t.stack_hwm_words * 100 / 256 : ℕ)).toNat) acc) 0

/-- `TelemetryAnalytics._generate_summary`: `None` on an empty window, else
the summary object with the rounded heap slope and the three-way status. -/
def generate_summary (samples : List Vitals) (timestamp : List ℕ) : Option Summary :=
  if samples = [] then none
  else
    some
      { timestamp := timestamp
        status :=
          if heapSlope samples < ALERT_HEAP_SLOPE then pyStr "heap_leak_suspected"
          else if pyMin (samples.map Vitals.free_heap) < ALERT_HEAP_LOW * 2 then
            pyStr "heap_caution"
          else pyStr "nominal"
        sample_count := samples.length
        heap_current := (samples.map Vitals.free_heap).getLastD 0
        heap_min := pyMin (samples.map Vitals.free_heap)
        heap_slope_bytes_per_sec := pyRound2 (heapSlope samples)
        min_ever_free_heap := pyMin (samples.map Vitals.min_free_heap)
        peak_stack_usage_pct := peak_stack_pct samples
        task_count := (samples.getLastD ⟨0, 0, 0, 0, []⟩).task_count }

/-- The reference slope the spec states: change in heap divided by the
elapsed seconds of the summary window. -/
def slopeRef (samples : List Vitals) : ℚ :=
  (((samples.map Vitals.free_heap).getLastD 0 : ℚ) -
      ((samples.map Vitals.free_heap).headD 0 : ℚ)) / (SUMMARY_INTERVAL_S : ℚ)

/-- With at least two samples the code's slope denominator
`n * (SUMMARY_INTERVAL_S / n)` collapses to `SUMMARY_INTERVAL_S`. -/
theorem heapSlope_eq_slopeRef (samples : List Vitals) (h2 : 2 ≤ samples.length) :
    heapSlope samples = slopeRef samples := by
  unfold heapSlope slopeRef
  rw [if_pos h2, if_pos (by omega)]
  have hn : (samples.length : ℚ) ≠ 0 := by
    have hpos : 0 < samples.length := by omega
    positivity
  rw [mul_div_cancel₀ _ hn]

/-- Claim C8 (amended): over a window of at least two samples, a summary is
emitted whose heap_slope_bytes_per_sec equals (last sample heap − first
sample heap) / SUMMARY_INTERVAL_S *rounded to two decimal places* (Python
`round`); the status is heap_leak_suspected exactly when the unrounded
slope is more negative than the configured threshold, else heap_caution
exactly when the minimum observed heap is below 2× the critical threshold,
else nominal. -/
theorem C8_summary_slope_and_status (samples : List Vitals) (ts : List ℕ)
    (h2 : 2 ≤ samples.length) :
    ∃ out, generate_summary samples ts = some out ∧
      out.heap_slope_bytes_per_sec = pyRound2 (slopeRef samples) ∧
      out.status =
        (if slopeRef samples < ALERT_HEAP_SLOPE then pyStr "heap_leak_suspected"
         else if pyMin (samples.map Vitals.free_heap) < ALERT_HEAP_LOW * 2 then
           pyStr "heap_caution"
         else pyStr "nominal") := by
  have hne : samples ≠ [] := by
    intro h
    subst h
    simp at h2
  unfold generate_summary
  rw [if_neg hne]
  refine ⟨_, rfl, ?_, ?_⟩
  · show pyRound2 (heapSlope samples) = pyRound2 (slopeRef samples)
    rw [heapSlope_eq_slopeRef samples h2]
  · show (if heapSlope samples < ALERT_HEAP_SLOPE then pyStr "heap_leak_suspected"
        else if pyMin (samples.map Vitals.free_heap) < ALERT_HEAP_LOW * 2 then
          pyStr "heap_caution"
        else pyStr "nominal") = _
    rw [heapSlope_eq_slopeRef samples h2]

/-- Claim C8, counterexample: two samples with heaps 100000 then 100001.
The slope of the 300-second window is 1/300 bytes per second, but the
emitted summary reports `round(1/300, 2) = 0.0`, so the *reported*
heap_slope_bytes_per_sec is not (last − first) / elapsed seconds. -/
theorem C8_counterexample :
    (generate_summary [⟨0, 100000, 100000, 0, []⟩, ⟨1, 100001, 100001, 0, []⟩]
        (pyStr "t")).map Summary.heap_slope_bytes_per_sec = some 0 ∧
      ((100001 : ℚ) - 100000) / 300 ≠ 0 := by
  constructor
  · have hslope : heapSlope [⟨0, 100000, 100000, 0, []⟩, ⟨1, 100001, 100001, 0, []⟩]
        = 1 / 300 := by
      unfold heapSlope
      simp only [List.map_cons, List.map_nil, List.length_cons, List.length_nil,
        List.getLastD, List.headD]
      norm_num [SUMMARY_INTERVAL_S]
    have hfl : Int.floor ((1 : ℚ) / 3) = 0 := by
      rw [Int.floor_eq_zero_iff]
      constructor <;> norm_num
    have hround : pyRound2 (1 / 300) = 0 := by
      unfold pyRound2 roundHalfEven
      have h100 : (100 : ℚ) * (1 / 300) = 1 / 3 := by norm_num
      rw [h100, hfl]
      rw [if_pos (by norm_num)]
      norm_num
    unfold generate_summary
    rw [if_neg (by simp)]
    show some (pyRound2 (heapSlope
      [⟨0, 100000, 100000, 0, []⟩, ⟨1, 100001, 100001, 0, []⟩])) = some 0
    rw [hslope, hround]
  · norm_num

/-- Claim C8, witness: the amended theorem applied to a concrete flat
two-sample window (slope 0, plenty of heap, status nominal). -/
theorem C8_witness :
    ∃ out, generate_summary [⟨0, 100000, 100000, 0, []⟩, ⟨1, 100000, 100000, 0, []⟩]
        (pyStr "t") = some out ∧
      out.heap_slope_bytes_per_sec =
        pyRound2 (slopeRef [⟨0, 100000, 100000, 0, []⟩, ⟨1, 100000, 100000, 0, []⟩]) ∧
      out.status =
        (if slopeRef [⟨0, 100000, 100000, 0, []⟩, ⟨1, 100000, 100000, 0, []⟩] <
            ALERT_HEAP_SLOPE then pyStr "heap_leak_suspected"
         else if pyMin (([⟨0, 100000, 100000, 0, []⟩, ⟨1, 100000, 100000, 0, []⟩] :
            List Vitals).map Vitals.free_heap) < ALERT_HEAP_LOW * 2 then
           pyStr "heap_caution"
         else pyStr "nominal") :=
  C8_summary_slope_and_status
    [⟨0, 100000, 100000, 0, []⟩, ⟨1, 100000, 100000, 0, []⟩] (pyStr "t") (by decide)

/-! ## Crash decoder — `crash_decoder.py` (`MAGIC_NAMES` lines 29–34,
`resolve_address` lines 56–81, `decode_crash` lines 84–136) -/

/-- Result of the external address→symbol collaborator (the
`arm-none-eabi-addr2line` subprocess behind `resolve_address`, including
its error-string fallbacks). -/
structure SymResult where
  function : List ℕ
  location : List ℕ
deriving DecidableEq

/-- A parsed crash record (`parse_crash_json` output). -/
structure CrashIn where
  magic : ℕ
  pc : ℕ
  lr : ℕ
  xpsr : ℕ
  core_id : ℕ
  task_number : ℕ
deriving DecidableEq

/-- One resolved address block of the decoder output. -/
structure AddrInfo where
  address : List ℕ
  function : List ℕ
  location : List ℕ
deriving DecidableEq

/-- Decoded crash output; the three variant-specific fields are `some` only
for the malloc / watchdog variants. -/
structure CrashOut where
  crash_type : List ℕ
  magic : List ℕ
  core_id : ℕ
  task_number : ℕ
  xpsr : List ℕ
  pc : AddrInfo
  lr : AddrInfo
  free_heap_at_failure : Option ℕ
  missing_task_bits : Option (List ℕ)
  tick_count_at_timeout : Option ℕ
deriving DecidableEq

/-- Uppercase hexadecimal digit character. -/
def hexDigitCharU (d : ℕ) : ℕ := if d < 10 then 48 + d else 55 + d

/-- Python `f'0x{h:08X}'` for a 32-bit value. -/
def hex08X (h : ℕ) : List ℕ :=
  [48, 120] ++ (List.range 8).map (fun i => hexDigitCharU (h / 16 ^ (7 - i) % 16))

/-- `MAGIC_NAMES` lookup. -/
def MAGIC_NAMES (m : ℕ) : Option (List ℕ) :=
  if m = 0xDEADFA11 then some (pyStr "HardFault")
  else if m = 0xDEAD57AC then some (pyStr "Stack Overflow")
  else if m = 0xDEADBAD0 then some (pyStr "Malloc Failure")
  else if m = 0xDEADB10C then some (pyStr "Watchdog Timeout")
  else none

/-- `MAGIC_NAMES.get(magic, f"Unknown (0x{magic:08X})")`. -/
def crashTypeName (m : ℕ) : List ℕ :=
  (MAGIC_NAMES m).getD (pyStr "Unknown (" ++ hex08X m ++ pyStr ")")

/-- `resolve_address`: a zero address resolves to the sentinel without
invoking the collaborator; any other address is delegated to `symbolize`. -/
def resolve_address (symbolize : ℕ → SymResult) (addr : ℕ) : SymResult :=
  if addr = 0 then ⟨pyStr "(none)", pyStr "N/A"⟩ else symbolize addr

/-- The "N/A" address block used by the malloc / watchdog variants. -/
def NA3 : AddrInfo := ⟨pyStr "N/A", pyStr "N/A", pyStr "N/A"⟩

/-- `decode_crash`: dispatch on the magic; HardFault/StackOverflow (and the
unknown fallback) resolve pc and lr through `resolve_address`; malloc
reinterprets pc as the free heap; watchdog reinterprets pc as the missing
task bitmask and lr as the tick count. -/
def decode_crash (symbolize : ℕ → SymResult) (crash : CrashIn) : CrashOut :=
  if crash.magic = 0xDEADFA11 ∨ crash.magic = 0xDEAD57AC then
    { crash_type := crashTypeName crash.magic, magic := hex08X crash.magic,
      core_id := crash.core_id, task_number := crash.task_number,
      xpsr := hex08X crash.xpsr,
      pc := ⟨hex08X crash.pc, (resolve_address symbolize crash.pc).function,
        (resolve_address symbolize crash.pc).location⟩,
      lr := ⟨hex08X crash.lr, (resolve_address symbolize crash.lr).function,
        (resolve_address symbolize crash.lr).location⟩,
      free_heap_at_failure := none, missing_task_bits := none,
      tick_count_at_timeout := none }
  else if crash.magic = 0xDEADBAD0 then
    { crash_type := crashTypeName crash.magic, magic := hex08X crash.magic,
      core_id := crash.core_id, task_number := crash.task_number,
      xpsr := hex08X crash.xpsr, pc := NA3, lr := NA3,
      free_heap_at_failure := some crash.pc, missing_task_bits := none,
      tick_count_at_timeout := none }
  else if crash.magic = 0xDEADB10C then
    { crash_type := crashTypeName crash.magic, magic := hex08X crash.magic,
      core_id := crash.core_id, task_number := crash.task_number,
      xpsr := hex08X crash.xpsr, pc := NA3, lr := NA3,
      free_heap_at_failure := none,
      missing_task_bits := some (hex08X crash.pc),
      tick_count_at_timeout := some crash.lr }
  else
    { crash_type := crashTypeName crash.magic, magic := hex08X crash.magic,
      core_id := crash.core_id, task_number := crash.task_number,
      xpsr := hex08X crash.xpsr,
      pc := ⟨hex08X crash.pc, (resolve_address symbolize crash.pc).function,
        (resolve_address symbolize crash.pc).location⟩,
      lr := ⟨hex08X crash.lr, (resolve_address symbolize crash.lr).function,
        (resolve_address symbolize crash.lr).location⟩,
      free_heap_at_failure := none, missing_task_bits := none,
      tick_count_at_timeout := none }

/-- Claim C9: for HardFault / StackOverflow crash reports, a zero pc
(resp. lr) resolves to the sentinel function "(none)" with location "N/A",
and the resulting field does not depend on the symbolizer collaborator. -/
theorem C9_zero_address_sentinel (crash : CrashIn)
    (hm : crash.magic = 0xDEADFA11 ∨ crash.magic = 0xDEAD57AC) :
    (crash.pc = 0 → ∀ symbolize, (decode_crash symbolize crash).pc =
      ⟨pyStr "0x00000000", pyStr "(none)", pyStr "N/A"⟩) ∧
    (crash.lr = 0 → ∀ symbolize, (decode_crash symbolize crash).lr =
      ⟨pyStr "0x00000000", pyStr "(none)", pyStr "N/A"⟩) ∧
    (crash.pc = 0 → ∀ s1 s2,
      (decode_crash s1 crash).pc = (decode_crash s2 crash).pc) ∧
    (crash.lr = 0 → ∀ s1 s2,
      (decode_crash s1 crash).lr = (decode_crash s2 crash).lr) := by
  have hpcfield : ∀ symbolize, crash.pc = 0 → (decode_crash symbolize crash).pc =
      ⟨pyStr "0x00000000", pyStr "(none)", pyStr "N/A"⟩ := by
    intro symbolize hpc
    unfold decode_crash
    rw [if_pos hm]
    show (⟨hex08X crash.pc, (resolve_address symbolize crash.pc).function,
      (resolve_address symbolize crash.pc).location⟩ : AddrInfo) = _
    rw [hpc]
    unfold resolve_address
    rw [if_pos rfl]
    have hhex : hex08X 0 = pyStr "0x00000000" := by decide
    rw [hhex]
  have hlrfield : ∀ symbolize, crash.lr = 0 → (decode_crash symbolize crash).lr =
      ⟨pyStr "0x00000000", pyStr "(none)", pyStr "N/A"⟩ := by
    intro symbolize hlr
    unfold decode_crash
    rw [if_pos hm]
    show (⟨hex08X crash.lr, (resolve_address symbolize crash.lr).function,
      (resolve_address symbolize crash.lr).location⟩ : AddrInfo) = _
    rw [hlr]
    unfold resolve_address
    rw [if_pos rfl]
    have hhex : hex08X 0 = pyStr "0x00000000" := by decide
    rw [hhex]
  refine ⟨fun hpc s => hpcfield s hpc, fun hlr s => hlrfield s hlr, ?_, ?_⟩
  · intro hpc s1 s2
    rw [hpcfield s1 hpc, hpcfield s2 hpc]
  · intro hlr s1 s2
    rw [hlrfield s1 hlr, hlrfield s2 hlr]

/-- Claim C9, witness: the sentinel theorem applied to a concrete HardFault
report with pc = 0 and a concrete symbolizer that would return "f"/"x.c:1"
if it were consulted. -/
theorem C9_witness :
    (decode_crash (fun _ => ⟨pyStr "f", pyStr "x.c:1"⟩)
        ⟨0xDEADFA11, 0, 3, 5, 0, 2⟩).pc =
      ⟨pyStr "0x00000000", pyStr "(none)", pyStr "N/A"⟩ :=
  (C9_zero_address_sentinel ⟨0xDEADFA11, 0, 3, 5, 0, 2⟩ (Or.inl rfl)).1 rfl
    (fun _ => ⟨pyStr "f", pyStr "x.c:1"⟩)

/-! ## Log stream decoder — `log_decoder.py` (`LEVEL_NAMES` lines 43–48,
`format_message` lines 165–222, `decode_stream` lines 259–383)

Decoded argument values: integers are exact; a float argument is kept as
its four raw little-endian wire bytes (IEEE-754 value semantics are outside
this integer model; no claim inspects a rendered float). -/

/-- A decoded argument value. -/
inductive PyVal
  | intVal : ℤ → PyVal
  | floatRaw : List ℕ → PyVal
deriving DecidableEq

/-- One emitted JSON log record. `file`/`line` are present only for known
tokens; `build_id_verified` models the `_build_id_verified` marker added to
a verified first packet. -/
structure LogRecord where
  ts : List ℕ
  level : List ℕ
  msg : List ℕ
  token : List ℕ
  file : Option (List ℕ)
  line : Option ℕ
  raw_args : List PyVal
  build_id_verified : Bool
deriving DecidableEq

/-- `LEVEL_NAMES` with its `'UNKNOWN'` default. -/
def LEVEL_NAMES (n : ℕ) : List ℕ :=
  if n = 0 then pyStr "ERROR"
  else if n = 1 then pyStr "WARN"
  else if n = 2 then pyStr "INFO"
  else if n = 3 then pyStr "DEBUG"
  else pyStr "UNKNOWN"

/-- `struct.unpack('<I', …)`: little-endian 32-bit word from four bytes. -/
def word32le (b0 b1 b2 b3 : ℕ) : ℕ :=
  b0 + 256 * b1 + 65536 * b2 + 16777216 * b3

/-- Python `str(z)` for an integer. -/
def intStr (z : ℤ) : List ℕ :=
  if z < 0 then 45 :: natDigits (-z).toNat else natDigits z.toNat

/-- Unpadded base-16 rendering with a supplied digit alphabet
(Python `'{:x}'.format` / `'{:X}'.format`). -/
def natHexDigitsWith (dig : ℕ → ℕ) (n : ℕ) : List ℕ :=
  if h : n < 16 then [dig n] else natHexDigitsWith dig (n / 16) ++ [dig (n % 16)]
termination_by n
decreasing_by exact Nat.div_lt_self (by omega) (by norm_num)

/-- Python `int & 0xFFFFFFFF` (two's-complement masking of a possibly
negative integer). -/
def mask32 (z : ℤ) : ℕ := (z.emod 4294967296).toNat

/-- Flag characters `-+0 #`. -/
def isFlagChar (c : ℕ) : Bool := c = 45 || c = 43 || c = 48 || c = 32 || c = 35

/-- ASCII digits. -/
def isDigitChar (c : ℕ) : Bool := 48 ≤ c && c ≤ 57

/-- Length-modifier characters `hlLzjt`. -/
def isLenModChar (c : ℕ) : Bool :=
  c = 104 || c = 108 || c = 76 || c = 122 || c = 106 || c = 116

/-- Skip an optional `.digits` precision. -/
def specAfterPrecision (l : List ℕ) : List ℕ :=
  match l with
  | 46 :: rest => rest.dropWhile isDigitChar
  | _ => l

/-- After a `%`: skip flags, width, precision and length modifiers, then
return the conversion character (when the string has not ended) and the
characters after it. -/
def specConv (l : List ℕ) : Option ℕ × List ℕ :=
  match (specAfterPrecision
      ((l.dropWhile isFlagChar).dropWhile isDigitChar)).dropWhile isLenModChar with
  | c :: rest => (some c, rest)
  | [] => (none, [])

/-- Rendering of one argument under a conversion character, as
`format_message` does: `d`/`i` decimal, `u` masked decimal, `x`/`X` masked
hex, float conversions with six fixed decimals, `s` via `str`, anything
else via `str`. A raw-float value renders as the marker "<float>"
(IEEE-754 text formatting is outside the model; no claim inspects it). -/
def renderArg (spec : ℕ) (v : PyVal) : List ℕ :=
  match v with
  | .floatRaw _ => pyStr "<float>"
  | .intVal z =>
    if spec = 100 ∨ spec = 105 then intStr z
    else if spec = 117 then natDigits (mask32 z)
    else if spec = 120 then natHexDigitsWith hexDigitChar (mask32 z)
    else if spec = 88 then natHexDigitsWith hexDigitCharU (mask32 z)
    else if spec = 102 ∨ spec = 70 ∨ spec = 101 ∨ spec = 69 ∨ spec = 103 ∨ spec = 71
      then intStr z ++ pyStr ".000000"
    else intStr z

/-- Length of a `dropWhile` result. -/
theorem length_dropWhile_le (p : ℕ → Bool) (x : List ℕ) :
    (x.dropWhile p).length ≤ x.length := by
  induction x with
  | nil => simp
  | cons a y ih =>
    rw [List.dropWhile_cons]
    by_cases h : p a
    · rw [if_pos h]
      simp only [List.length_cons]
      omega
    · rw [if_neg h]

/-- Skipping the precision does not lengthen the string. -/
theorem specAfterPrecision_le (l : List ℕ) :
    (specAfterPrecision l).length ≤ l.length := by
  unfold specAfterPrecision
  match l with
  | 46 :: rest =>
    simp only [List.length_cons]
    have := length_dropWhile_le isDigitChar rest
    omega
  | [] => simp
  | c :: rest =>
    split
    · next heq =>
      have := length_dropWhile_le isDigitChar (c :: rest).tail
      cases heq
      simp at this ⊢
      omega
    · exact le_refl _

/-- The characters after the conversion character form a shorter suffix. -/
theorem specConv_after_le (l : List ℕ) : (specConv l).2.length ≤ l.length := by
  unfold specConv
  have h1 := length_dropWhile_le isFlagChar l
  have h2 := length_dropWhile_le isDigitChar (l.dropWhile isFlagChar)
  have h3 := specAfterPrecision_le ((l.dropWhile isFlagChar).dropWhile isDigitChar)
  have h4 := length_dropWhile_le isLenModChar
    (specAfterPrecision ((l.dropWhile isFlagChar).dropWhile isDigitChar))
  split
  · next c rest heq =>
    have : (c :: rest).length ≤ l.length := by rw [← heq] at *; omega
    simp at this
    simp
    omega
  · simp

/-- `format_message`: walk the format string; at each `%` parse the
specifier; `%%` emits a percent; with arguments remaining, render the next
one; otherwise copy the specifier text verbatim; a `%` ending the string,
or one whose specifier runs off the end, is emitted as a literal percent
and scanning resumes at the next character. -/
def format_message_loop (fmt : List ℕ) (args : List PyVal) : List ℕ :=
  match fmt with
  | [] => []
  | 37 :: rest =>
    match rest with
    | [] => [37]
    | r1 :: rtail =>
      match hc : specConv (r1 :: rtail) with
      | (some c, after) =>
        if c = 37 then 37 :: format_message_loop after args
        else
          match args with
          | v :: args' => renderArg c v ++ format_message_loop after args'
          | [] => (37 :: (r1 :: rtail).take ((r1 :: rtail).length - after.length)) ++
              format_message_loop after []
      | (none, _) => 37 :: format_message_loop (r1 :: rtail) args
  | c :: rest => c :: format_message_loop rest args
termination_by fmt.length
decreasing_by
  · have := specConv_after_le (r1 :: rtail)
    rw [hc] at this
    simp at this ⊢
    omega
  · have := specConv_after_le (r1 :: rtail)
    rw [hc] at this
    simp at this ⊢
    omega
  · have := specConv_after_le (r1 :: rtail)
    rw [hc] at this
    simp at this ⊢
    omega
  · simp
  · simp

/-- `format_message` on a format string and decoded arguments. -/
def format_message (fmt : List ℕ) (args : List PyVal) : List ℕ :=
  format_message_loop fmt args

/-- Read one wire varint byte-by-byte as the known-token path does: collect
bytes until one has a clear continuation bit, or five have been collected;
`none` when the stream ends first (the blocking read raising on EOF). -/
def read_varint_wire : List ℕ → List ℕ → Option (List ℕ × List ℕ)
  | [], _ => none
  | b :: rest, acc =>
    if b &&& 0x80 = 0 then some (acc ++ [b], rest)
    else if 5 ≤ acc.length + 1 then some (acc ++ [b], rest)
    else read_varint_wire rest (acc ++ [b])

/-- `read_bytes(4)` for a float argument: exactly four bytes off the
stream, or `none` at end of stream. -/
def readFloatBytes (l : List ℕ) : Option (List ℕ × List ℕ) :=
  if 4 ≤ l.length then some (l.take 4, l.drop 4) else none

/-- Read the declared arguments of a known token: position `i` is a float
(four raw bytes) when `arg_types[i] == 'f'`, else a zig-zag varint;
`none` when the stream ends inside an argument. -/
def read_args (arg_types : List ℕ) : ℕ → ℕ → List ℕ → Option (List PyVal × List ℕ)
  | 0, _, input => some ([], input)
  | n + 1, i, input =>
    if i < arg_types.length ∧ arg_types.getD i 0 = 102 then
      match readFloatBytes input with
      | some (fb, rest) =>
        match read_args arg_types n (i + 1) rest with
        | some (vs, rest') => some (PyVal.floatRaw fb :: vs, rest')
        | none => none
      | none => none
    else
      match read_varint_wire input [] with
      | some (vbytes, rest) =>
        match read_args arg_types n (i + 1) rest with
        | some (vs, rest') =>
          some (PyVal.intVal (zigzag_decode (decode_varint vbytes 0).1) :: vs, rest')
        | none => none
      | none => none

/-- Skip the tail of one varint, after a first byte with the continuation
bit set: consume up to and including the next byte with a clear top bit. -/
def skip_varint_rest : List ℕ → List ℕ
  | [] => []
  | b :: rest => if b &&& 0x80 = 0 then rest else skip_varint_rest rest

/-- Best-effort skip of `n` arguments by varint-skipping only (the
unknown-token path); stream exhaustion stops silently. -/
def skip_args : ℕ → List ℕ → List ℕ
  | 0, input => input
  | _ + 1, [] => []
  | n + 1, b :: rest =>
    if b &&& 0x80 = 0 then skip_args n rest
    else skip_args n (skip_varint_rest rest)

/-- Python `sub in s` on strings: `sub` occurs as a contiguous slice. -/
def startsWithSeg : List ℕ → List ℕ → Bool
  | [], _ => true
  | _ :: _, [] => false
  | p :: ps, c :: cs => p = c && startsWithSeg ps cs

/-- Python `sub in s` (substring containment). -/
def containsSeg (sub : List ℕ) : List ℕ → Bool
  | [] => startsWithSeg sub []
  | c :: cs => startsWithSeg sub (c :: cs) || containsSeg sub cs

/-- Outcome of one loop iteration: the record to emit, the db entry when
the token was found, the decoded arguments, and the remaining stream. -/
structure StepResult where
  record : LogRecord
  entry? : Option DbEntry
  args : List PyVal
  rest : List ℕ
deriving DecidableEq

/-- One iteration of `decode_stream`'s loop, before the first-packet
build-id logic: read the 4-byte token id and the level/count byte, look the
token up; a known token's arguments are decoded by the declared types and a
full record is built (`none` when the stream ends inside the header or a
known-token argument — the loop breaks without emitting); an unknown token
yields the degraded record and the stream after varint-skipping the claimed
argument count. -/
def decode_step (db : List (ℕ × DbEntry)) (ts : List ℕ) :
    List ℕ → Option StepResult
  | b0 :: b1 :: b2 :: b3 :: meta :: rest =>
    match lookupKey db (word32le b0 b1 b2 b3) with
    | some entry =>
      match read_args entry.arg_types (meta &&& 0xF) 0 rest with
      | some (args, rest') =>
        some ⟨⟨ts, entry.level, format_message entry.fmt args,
          hex08x (word32le b0 b1 b2 b3), some entry.file, some entry.line,
          args, false⟩, some entry, args, rest'⟩
      | none => none
    | none =>
      some ⟨⟨ts, LEVEL_NAMES ((meta >>> 4) &&& 0xF),
        pyStr "<unknown token " ++ hex08x (word32le b0 b1 b2 b3) ++ pyStr ">",
        hex08x (word32le b0 b1 b2 b3), none, none, [], false⟩,
        none, [], skip_args (meta &&& 0xF) rest⟩
  | [] => none
  | [_] => none
  | [_, _] => none
  | [_, _, _] => none
  | [_, _, _, _] => none

/-- Reading a varint consumes at least one byte. -/
theorem read_varint_wire_lt (input : List ℕ) :
    ∀ acc vb rest, read_varint_wire input acc = some (vb, rest) →
      rest.length < input.length := by
  induction input with
  | nil => intro acc vb rest h; cases h
  | cons b tail ih =>
    intro acc vb rest h
    rw [read_varint_wire] at h
    by_cases h1 : b &&& 0x80 = 0
    · rw [if_pos h1] at h
      injection h with h
      injection h with _ h2
      subst h2
      simp
    · rw [if_neg h1] at h
      by_cases h2 : 5 ≤ acc.length + 1
      · rw [if_pos h2] at h
        injection h with h
        injection h with _ h3
        subst h3
        simp
      · rw [if_neg h2] at h
        have := ih _ _ _ h
        simp
        omega

/-- Taking a float argument consumes four bytes. -/
theorem readFloatBytes_len (l fb rest : List ℕ) :
    readFloatBytes l = some (fb, rest) → rest.length + 4 = l.length := by
  intro h
  rw [readFloatBytes] at h
  split at h
  · injection h with h
    injection h with _ h2
    subst h2
    rw [List.length_drop]
    omega
  · cases h

/-- Reading arguments never lengthens the stream. -/
theorem read_args_le (arg_types : List ℕ) (n : ℕ) :
    ∀ i input vs rest, read_args arg_types n i input = some (vs, rest) →
      rest.length ≤ input.length := by
  induction n with
  | zero =>
    intro i input vs rest h
    rw [read_args] at h
    injection h with h
    injection h with _ h2
    subst h2
    exact le_refl _
  | succ n ih =>
    intro i input vs rest h
    rw [read_args] at h
    by_cases hf : i < arg_types.length ∧ arg_types.getD i 0 = 102
    · rw [if_pos hf] at h
      split at h
      · rename_i fb r hfb
        split at h
        · rename_i vs' rest' hrec
          injection h with h
          injection h with _ h2
          subst h2
          have h1 := readFloatBytes_len input fb r hfb
          have h2 := ih (i + 1) r vs' rest' hrec
          omega
        · cases h
      · cases h
    · rw [if_neg hf] at h
      split at h
      · rename_i vb r hvw
        split at h
        · rename_i vs' rest' hrec
          injection h with h
          injection h with _ h2
          subst h2
          have h1 := read_varint_wire_lt input [] vb r hvw
          have h2 := ih (i + 1) r vs' rest' hrec
          omega
        · cases h
      · cases h

/-- Skipping a varint tail never lengthens the stream. -/
theorem skip_varint_rest_le (l : List ℕ) : (skip_varint_rest l).length ≤ l.length := by
  induction l with
  | nil => simp [skip_varint_rest]
  | cons b rest ih =>
    rw [skip_varint_rest]
    by_cases h : b &&& 0x80 = 0
    · rw [if_pos h]
      simp
    · rw [if_neg h]
      simp
      omega

/-- Best-effort skipping never lengthens the stream. -/
theorem skip_args_le (n : ℕ) : ∀ l : List ℕ, (skip_args n l).length ≤ l.length := by
  induction n with
  | zero => intro l; rw [skip_args]
  | succ n ih =>
    intro l
    match l with
    | [] => rw [skip_args]
    | b :: rest =>
      rw [skip_args]
      by_cases h : b &&& 0x80 = 0
      · rw [if_pos h]
        have := ih rest
        simp
        omega
      · rw [if_neg h]
        have h1 := ih (skip_varint_rest rest)
        have h2 := skip_varint_rest_le rest
        simp
        omega

/-- A successful step consumes at least the five header bytes. -/
theorem decode_step_consumed (db : List (ℕ × DbEntry)) (ts : List ℕ)
    (input : List ℕ) (res : StepResult) :
    decode_step db ts input = some res → res.rest.length + 5 ≤ input.length := by
  intro h
  rw [decode_step.eq_def] at h
  split at h
  · rename_i b0 b1 b2 b3 meta rest
    split at h
    · rename_i entry hlk
      split at h
      · rename_i args rest' hra
        injection h with h
        subst h
        have := read_args_le entry.arg_types (meta &&& 0xF) 0 rest args rest' hra
        simp
        omega
      · cases h
    · rename_i hlk
      injection h with h
      subst h
      have := skip_args_le (meta &&& 0xF) rest
      simp
      omega
  · cases h
  · cases h
  · cases h
  · cases h
  · cases h

/-- The first-packet mismatch test `args[0] & 0xFFFFFFFF != expected &
0xFFFFFFFF` (no arguments → no mismatch; a float first argument would raise
a TypeError in Python and is left unmodelled). -/
def bidMismatch (args : List PyVal) (expected : Option ℕ) : Bool :=
  match args with
  | PyVal.intVal z :: _ => decide (mask32 z ≠ (expected.getD 0) % 4294967296)
  | _ => false

/-- `decode_stream`: fold the step over the byte stream. When validation is
on, a build id was loaded, and this is the first packet: a known record
whose format string contains "BUILD_ID" either aborts the loop unemitted on
an argument mismatch (`sys.exit(2)`) or is emitted with the
`_build_id_verified` marker; `first` is cleared exactly when that guard
ran. -/
def decode_stream (db : List (ℕ × DbEntry)) (ts : List ℕ)
    (expected_build_id : Option ℕ) (validate : Bool) :
    List ℕ → Bool → List LogRecord
  | input, first =>
    match h : decode_step db ts input with
    | none => []
    | some res =>
      if first && validate && expected_build_id.isSome then
        if res.entry?.isSome &&
            containsSeg (pyStr "BUILD_ID") ((res.entry?.getD ⟨[], [], [], [], 0⟩).fmt) then
          if bidMismatch res.args expected_build_id then []
          else { res.record with build_id_verified := true } ::
            decode_stream db ts expected_build_id validate res.rest false
        else res.record ::
          decode_stream db ts expected_build_id validate res.rest false
      else res.record ::
        decode_stream db ts expected_build_id validate res.rest
          (first && !(validate && expected_build_id.isSome))
termination_by input _ => input.length
decreasing_by
  all_goals
    have := decode_step_consumed db ts input res h
    omega

/-- The bytes of one wire varint: any number of continuation bytes (top
bit set) followed by one final byte (top bit clear). -/
inductive WireVarint : List ℕ → Prop
  | last (b : ℕ) : b &&& 0x80 = 0 → WireVarint [b]
  | cont (b : ℕ) (v : List ℕ) : b &&& 0x80 ≠ 0 → WireVarint v → WireVarint (b :: v)

/-- After its first byte is consumed, the rest of a wire varint is exactly
what the inner skip loop eats. -/
theorem skip_varint_rest_append (v tail : List ℕ) (hv : WireVarint v) :
    skip_varint_rest (v ++ tail) = tail := by
  induction hv with
  | last b hb =>
    rw [List.cons_append, List.nil_append, skip_varint_rest, if_pos hb]
  | cont b v hb _ ih =>
    rw [List.cons_append, skip_varint_rest, if_neg hb]
    exact ih

/-- Skipping one argument consumes exactly one wire varint. -/
theorem skip_args_varint (n : ℕ) (v tail : List ℕ) (hv : WireVarint v) :
    skip_args (n + 1) (v ++ tail) = skip_args n tail := by
  cases hv with
  | last b hb =>
    rw [List.cons_append, List.nil_append, skip_args, if_pos hb]
  | cont b v hb hv =>
    rw [List.cons_append, skip_args, if_neg hb,
      skip_varint_rest_append v tail hv]

/-- Skipping `n` arguments consumes exactly `n` wire varints. -/
theorem skip_args_varints (vs : List (List ℕ)) (tail : List ℕ)
    (hv : ∀ v ∈ vs, WireVarint v) :
    skip_args vs.length (vs.join ++ tail) = tail := by
  induction vs with
  | nil =>
    simp only [List.flatten_nil, List.nil_append, List.length_nil]
    rw [skip_args]
  | cons v rest ih =>
    simp only [List.flatten_cons, List.length_cons, List.append_assoc]
    rw [skip_args_varint rest.length v _ (hv v (List.mem_cons_self _ _))]
    exact ih (fun x hx => hv x (List.mem_cons_of_mem _ hx))

/-- Claim C6: an incoming packet whose 4-byte token hash is not in the
loaded database yields exactly one degraded record of the shape
{ts, level, msg:"<unknown token 0x…>", token, raw_args:[]}, the claimed
argument count is skipped by varint-skipping only — the `meta & 0xF` wire
varints are consumed whole, never a fixed 4-byte float — and the decode
loop continues on the bytes after them. -/
theorem C6_unknown_token_degraded_record (db : List (ℕ × DbEntry)) (ts : List ℕ)
    (expected : Option ℕ) (validate : Bool) (first : Bool)
    (b0 b1 b2 b3 meta : ℕ)
    (hnf : lookupKey db (word32le b0 b1 b2 b3) = none)
    (vs : List (List ℕ)) (hn : vs.length = meta &&& 0xF)
    (hv : ∀ v ∈ vs, WireVarint v) (tail : List ℕ) :
    decode_stream db ts expected validate
        (b0 :: b1 :: b2 :: b3 :: meta :: (vs.join ++ tail)) first =
      ⟨ts, LEVEL_NAMES ((meta >>> 4) &&& 0xF),
          pyStr "<unknown token " ++ hex08x (word32le b0 b1 b2 b3) ++ pyStr ">",
          hex08x (word32le b0 b1 b2 b3), none, none, [], false⟩ ::
        decode_stream db ts expected validate tail
          (first && !(validate && expected.isSome)) := by
  have hstep : decode_step db ts (b0 :: b1 :: b2 :: b3 :: meta :: (vs.join ++ tail)) =
      some ⟨⟨ts, LEVEL_NAMES ((meta >>> 4) &&& 0xF),
        pyStr "<unknown token " ++ hex08x (word32le b0 b1 b2 b3) ++ pyStr ">",
        hex08x (word32le b0 b1 b2 b3), none, none, [], false⟩,
        none, [], tail⟩ := by
    rw [decode_step, hnf, ← hn, skip_args_varints vs tail hv]
  conv_lhs => unfold decode_stream
  split
  · rename_i heq
    rw [hstep] at heq
    cases heq
  · rename_i res heq
    rw [hstep] at heq
    injection heq with heq
    subst heq
    by_cases hguard : (first && validate && expected.isSome) = true
    · rw [if_pos hguard]
      rw [if_neg (by simp)]
      have hfirst : (first && !(validate && expected.isSome)) = false := by
        simp only [Bool.and_eq_true] at hguard
        simp [hguard.1.2, hguard.2]
      rw [hfirst]
    · rw [if_neg hguard]

/-- Claim C6, witness: with an empty database and the packet
`AB 00 00 00 21 05` (token 0x000000AB, level 2, one argument, varint 0x05),
the decoder emits exactly the degraded record and stops at end of input. -/
theorem C6_witness :
    decode_stream [] (pyStr "t") none false [171, 0, 0, 0, 33, 5] true =
      [⟨pyStr "t", LEVEL_NAMES ((33 >>> 4) &&& 0xF),
        pyStr "<unknown token " ++ hex08x (word32le 171 0 0 0) ++ pyStr ">",
        hex08x (word32le 171 0 0 0), none, none, [], false⟩] := by
  have h := C6_unknown_token_degraded_record [] (pyStr "t") none false true
    171 0 0 0 33 rfl [[5]] (by decide)
    (by
      intro v hv
      rw [List.mem_singleton] at hv
      subst hv
      exact WireVarint.last 5 (by decide)) []
  have hnil : ∀ fl, decode_stream [] (pyStr "t") none false [] fl = [] := by
    intro fl
    unfold decode_stream
    rfl
  simp only [List.flatten_cons, List.flatten_nil, List.append_nil, Option.isSome_none,
    Bool.and_false, Bool.false_and, Bool.not_false, Bool.and_true] at h
  rw [h, hnil]

end FreeRTOSTools
